import Mathlib

/-!
Verification development for the QA dependency-aware test-orchestration backend.

The definitions below are a shallow embedding of the TypeScript sources:
  * `buildExecutionGraph`   from src/backend-api/src/modules/dependency-graph/graph.service.ts
  * `resolveVariables`, `executeRun`
                            from src/backend-api/src/modules/execution/orchestrator.service.ts
  * `analyzeProjectVariables` (candidate pipeline)
                            from src/backend-api/src/modules/ai-analysis/analysis.service.ts
  * `extractSchemaKeys` and the legacy post-processing loop
                            from the unnamed legacy analysis service (src/unnamed/part_004)
  * `extractVariablesFromSchema`, `processOpenParams`
                            from src/backend-api/src/modules/input-processing/parser.service.ts

Database tables are modelled as in-memory collections; JavaScript objects are
modelled as association lists with JS insertion/update semantics (`objInsert`);
JS numbers used for confidences are modelled as `Rat`; HTTP and LLM clients are
modelled as explicit oracle arguments.
-/

namespace QA

/-! ## JS-flavoured helpers -/

/-- JS `a || d` for possibly-missing strings: the empty string is falsy. -/
def jsOr (o : Option String) (d : String) : String :=
  match o with
  | some s => if s = "" then d else s
  | none => d

/-- Does the character list start with the given pattern? -/
def startsWithChars : List Char → List Char → Bool
  | _, [] => true
  | [], _ :: _ => false
  | a :: as, b :: bs => a == b && startsWithChars as bs

/-- Does the character list contain the pattern as a contiguous run? -/
def hasSubChars : List Char → List Char → Bool
  | [], pat => pat.isEmpty
  | c :: rest, pat => startsWithChars (c :: rest) pat || hasSubChars rest pat

/-- JS `String.prototype.includes`: `pat` occurs somewhere in `s`. -/
def strContainsB (s pat : String) : Bool :=
  hasSubChars s.toList pat.toList

/-- Rewrite the first occurrence of `pat` in a character list. -/
def replaceFirstChars (pat rep : List Char) : List Char → List Char
  | [] => []
  | c :: rest =>
    if startsWithChars (c :: rest) pat then rep ++ (c :: rest).drop pat.length
    else c :: replaceFirstChars pat rep rest

/-- JS `String.prototype.replace` with a string pattern replaces only the
first occurrence (an empty pattern matches at the start). -/
def replaceFirst (s pat rep : String) : String :=
  if pat = "" then rep ++ s
  else String.mk (replaceFirstChars pat.toList rep.toList s.toList)

/-- JS `String.prototype.toLowerCase` (structural model of `String.toLower`). -/
def jsToLower (s : String) : String :=
  String.mk (s.toList.map Char.toLower)

/-- JS `String.prototype.toUpperCase` (structural model of `String.toUpper`). -/
def jsToUpper (s : String) : String :=
  String.mk (s.toList.map Char.toUpper)

/-- JS `String.prototype.endsWith`. -/
def jsEndsWith (s pat : String) : Bool :=
  startsWithChars s.toList.reverse pat.toList.reverse

/-- Assignment `o[k] = v` on a JS object modelled as an association list:
an existing key is updated in place, a new key is appended. -/
def objInsert (l : List (String × α)) (k : String) (v : α) : List (String × α) :=
  if l.any (fun kv => kv.1 = k) then
    l.map (fun kv => if kv.1 = k then (k, v) else kv)
  else l ++ [(k, v)]

/-- JS property read `o[k]`: `none` models `undefined`. -/
def objLookup (l : List (String × α)) (k : String) : Option α :=
  (l.find? (fun kv => kv.1 = k)).map Prod.snd

/-- JS `Math.round(q * 100) / 100` (round half towards positive infinity). -/
def jsRound2 (q : Rat) : Rat :=
  ((Rat.floor (q * 100 + 1/2) : Int) : Rat) / 100

/-! ## Execution planner (graph.service.ts, `buildExecutionGraph`)

Nodes are the project's Api ids, edges the confirmed `ApiDependency` rows as
`(sourceApiId, targetApiId)` pairs.  The JS `while` loop is given explicit
fuel; `nodes.length + edges.length + 1` iterations always suffice because
every iteration consumes a non-empty level (a fuel-stability lemma below makes
this faithful to the unbounded JS loop). -/

/-- Number of edges whose target is `v` (the in-degree contribution). -/
def tcount (E : List (String × String)) (v : String) : Nat :=
  (E.filter (fun e => e.2 = v)).length

/-- `inDegree` after the initialization loop: every node starts at 0 and each
dependency increments its target. -/
def inDeg0 (edges : List (String × String)) (v : String) : Int :=
  (tcount edges v : Int)

/-- One `inDegree[neighbor]--` step: decrement the target's in-degree and,
if it reaches exactly 0, push it onto `nextLevel`. -/
def stepEdge (st : (String → Int) × List String) (e : String × String) :
    (String → Int) × List String :=
  let d := st.1 e.2 - 1
  (fun v => if v = e.2 then d else st.1 v,
   if d = 0 then st.2 ++ [e.2] else st.2)

/-- Process a list of out-edges in order. -/
def processEdges (E : List (String × String)) (st : (String → Int) × List String) :
    (String → Int) × List String :=
  E.foldl stepEdge st

/-- `dependencies.filter(d => d.sourceApiId === nodeId)`. -/
def outEdges (edges : List (String × String)) (u : String) : List (String × String) :=
  edges.filter (fun e => e.1 = u)

/-- Process every node of the current level: for each node in order, walk its
out-edges, decrementing targets and collecting the next level. -/
def processLevel (edges : List (String × String)) (level : List String)
    (f : String → Int) : (String → Int) × List String :=
  level.foldl (fun st u => processEdges (outEdges edges u) st) (f, [])

/-- The level-based Kahn loop: while the current level is non-empty, append it
to `sortedOrder`, record it as an execution level, and compute the next level. -/
def kahnLoop (edges : List (String × String)) :
    Nat → (String → Int) → List String → List String × List (List String)
  | 0, _, _ => ([], [])
  | Nat.succ fuel, f, level =>
    if level = [] then ([], [])
    else
      let st := processLevel edges level f
      let r := kahnLoop edges fuel st.1 st.2
      (level ++ r.1, level :: r.2)

/-- The initial queue: nodes whose in-degree is 0, in catalog order. -/
def initialLevel (nodes : List String) (edges : List (String × String)) :
    List String :=
  nodes.filter (fun v => decide (inDeg0 edges v = 0))

/-- `buildExecutionGraph`: Kahn's algorithm; `none` models the thrown
"Cycle detected" error when `sortedOrder.length !== apis.length`. -/
def buildExecutionGraph (nodes : List String) (edges : List (String × String)) :
    Option (List String × List (List String)) :=
  let r := kahnLoop edges (nodes.length + edges.length + 1) (inDeg0 edges)
    (initialLevel nodes edges)
  if r.1.length = nodes.length then some r else none

/-! ## Run executor (orchestrator.service.ts)

The per-run shared context, test-execution rows, artifacts and outgoing HTTP
calls are modelled explicitly.  The HTTP client is an oracle
`method → url → HttpResponse`; `validateStatus: () => true` means every status
is returned as a normal response.  Within a layer the JS code dispatches
endpoints concurrently, but each task only writes the context entry of its own
api id and the only context entries a task can read belong to strictly earlier
layers (an in-layer source would force the reader into a later layer), so the
sequential fold below is observationally equivalent for executions, artifacts
and run status. -/

/-- A JSON response: HTTP status plus the top-level object of the body. -/
structure HttpResponse where
  status : Nat
  body : List (String × String)
deriving DecidableEq, Repr

/-- A confirmed `ApiDependency` row. -/
structure Dependency where
  sourceApiId : String
  targetApiId : String
  mapping : List (String × String)
deriving DecidableEq, Repr

/-- The slice of an Api row used by the executor. -/
structure ExecApi where
  id : String
  method : String
  path : String
deriving DecidableEq, Repr

/-- A project as the executor sees it. -/
structure ExecProject where
  apis : List ExecApi
  deps : List Dependency
deriving Repr

/-- The per-run context keyed by api id. -/
abbrev RunContext := List (String × HttpResponse)

/-- The failure condition of `resolveVariables` for a single dependency:
`!sourceResult || sourceResult.status >= 300`. -/
def depFailsIn (context : RunContext) (dep : Dependency) : Bool :=
  match objLookup context dep.sourceApiId with
  | none => true
  | some r => decide (300 ≤ r.status)

/-- The thrown message, verbatim from the source. -/
def depFailMsg (dep : Dependency) : String :=
  "Dependency failed: Source " ++ dep.sourceApiId ++ " not ready or failed."

/-- The loop body of `resolveVariables`, threading the `resolved` object. -/
def resolveVariablesAux (context : RunContext) :
    List Dependency → List (String × Option String) →
    Except String (List (String × Option String))
  | [], acc => Except.ok acc
  | dep :: rest, acc =>
    match objLookup context dep.sourceApiId with
    | none => Except.error (depFailMsg dep)
    | some sourceResult =>
      if 300 ≤ sourceResult.status then Except.error (depFailMsg dep)
      else
        let acc' := dep.mapping.foldl
          (fun a kv => objInsert a kv.1 (objLookup sourceResult.body kv.2)) acc
        resolveVariablesAux context rest acc'

/-- `resolveVariables`: top-level key lookup per mapping entry; throws on the
first dependency whose source is missing from the context or has status ≥ 300. -/
def resolveVariables (deps : List Dependency) (context : RunContext) :
    Except String (List (String × Option String)) :=
  resolveVariablesAux context deps []

/-- A `TestExecution` row in its final state. -/
structure ExecRecord where
  apiId : String
  status : String
  errorMessage : Option String
deriving DecidableEq, Repr

/-- An `ExecutionArtifact` row (elapsed milliseconds not modelled). -/
structure Artifact where
  apiId : String
  responseData : List (String × String)
deriving DecidableEq, Repr

/-- JS `String(val)` for a possibly-undefined resolved value. -/
def jsValString (v : Option String) : String :=
  match v with
  | some s => s
  | none => "undefined"

/-- `environment + api.path` with each `{key}` replaced by the resolved value
(JS `replace` with a string pattern rewrites the first occurrence). -/
def hydrateUrl (environment path : String) (vars : List (String × Option String)) :
    String :=
  vars.foldl
    (fun url kv => replaceFirst url ("\x7b" ++ kv.1 ++ "\x7d") (jsValString kv.2))
    (environment ++ path)

/-- What one endpoint's task produces. -/
structure StepResult where
  exec : ExecRecord
  ctxEntry : Option HttpResponse
  calls : List (String × String)
  artifacts : List Artifact
deriving Repr

/-- The per-endpoint body of `executeRun`: resolve inputs, hydrate the URL,
issue the HTTP call, record the artifact and classify the status.  A
resolution error is caught and stored on the execution row; no call is made. -/
def runApi (http : String → String → HttpResponse) (environment : String)
    (api : ExecApi) (targetDependencies : List Dependency) (context : RunContext) :
    StepResult :=
  match resolveVariables targetDependencies context with
  | Except.error msg =>
      { exec := { apiId := api.id, status := "FAILED", errorMessage := some msg },
        ctxEntry := none, calls := [], artifacts := [] }
  | Except.ok vars =>
      let url := hydrateUrl environment api.path vars
      let response := http api.method url
      let status := if response.status < 400 then "PASSED" else "FAILED"
      { exec := { apiId := api.id, status := status, errorMessage := none },
        ctxEntry := some response,
        calls := [(api.method, url)],
        artifacts := [{ apiId := api.id, responseData := response.body }] }

/-- The accumulating state of a run. -/
structure RunState where
  context : RunContext
  executions : List ExecRecord
  calls : List (String × String)
  artifacts : List Artifact

/-- Handle one api id of a level: look the Api up (a missing row throws
"API not found", caught into a FAILED execution) and run it. -/
def runLevelStep (proj : ExecProject) (http : String → String → HttpResponse)
    (environment : String) (st : RunState) (apiId : String) : RunState :=
  match proj.apis.find? (fun a => decide (a.id = apiId)) with
  | none =>
      { st with executions := st.executions ++
          [{ apiId := apiId, status := "FAILED", errorMessage := some "API not found" }] }
  | some api =>
      let targetDependencies := proj.deps.filter (fun d => decide (d.targetApiId = apiId))
      let r := runApi http environment api targetDependencies st.context
      { context :=
          match r.ctxEntry with
          | some resp => objInsert st.context apiId resp
          | none => st.context,
        executions := st.executions ++ [r.exec],
        calls := st.calls ++ r.calls,
        artifacts := st.artifacts ++ r.artifacts }

/-- The outcome of `executeRun`; the bookkeeping `TestRun` row itself is
always created first, so only its terminal status and children are modelled. -/
structure RunResult where
  status : String
  executions : List ExecRecord
  calls : List (String × String)
  artifacts : List Artifact
deriving Repr

/-- `executeRun`: plan, then execute layer by layer.  A planner failure is
caught and surfaced as the terminal status ERROR with no executions created;
per-endpoint failures are absorbed and the run completes. -/
def executeRun (proj : ExecProject) (http : String → String → HttpResponse)
    (environment : String) : RunResult :=
  match buildExecutionGraph (proj.apis.map (fun a => a.id))
      (proj.deps.map (fun d => (d.sourceApiId, d.targetApiId))) with
  | none => { status := "ERROR", executions := [], calls := [], artifacts := [] }
  | some r =>
      let final := r.2.foldl
        (fun st level =>
          level.foldl (fun st2 apiId => runLevelStep proj http environment st2 apiId) st)
        { context := [], executions := [], calls := [], artifacts := [] }
      { status := "COMPLETED", executions := final.executions,
        calls := final.calls, artifacts := final.artifacts }

/-! ## Candidate analysis pipeline (analysis.service.ts)

The LLM chat call is an oracle: `llmCandidates` stands for the parsed union of
the batched model replies (an empty list models failed or empty batches).
Mapping values are JSON strings, so the JS guard `typeof v === 'string'` is
always satisfied here.  JSON Schema property values are objects and therefore
truthy, so a response schema is modelled by its `type` and its property-name
list. -/

/-- The slice of a response schema the analysis reads. -/
structure RespSchema where
  stype : Option String
  properties : Option (List String)
deriving DecidableEq, Repr

/-- A Variable row as included with an Api. -/
structure VariableRow where
  name : String
  location : String
  varType : String
  dataType : String
deriving DecidableEq, Repr

/-- An ApiResponse row; `none` models a null/non-object stored schema. -/
structure ResponseRow where
  responseSchema : Option RespSchema
deriving DecidableEq, Repr

/-- An Api row with its variables and responses included. -/
structure ApiFull where
  id : String
  method : String
  path : String
  «variables» : List VariableRow
  responses : List ResponseRow
deriving DecidableEq, Repr

/-- A candidate as proposed (deterministically or by the LLM) before the
persistence loop; optional fields model possibly-absent JSON fields. -/
structure RawCandidate where
  source_api_id : Option String
  source_method : Option String
  source_path : Option String
  target_api_id : Option String
  target_method : Option String
  target_path : Option String
  mapping : List (String × String)
  confidence : Rat
  reason : Option String
deriving DecidableEq, Repr

/-- A persisted `DependencyCandidate` row. -/
structure PersistedCandidate where
  sourceApiId : String
  targetApiId : String
  mapping : List (String × String)
  confidence : Rat
deriving DecidableEq, Repr

/-- A consumer view: an Api together with its `user_input` variables. -/
structure ConsumerView where
  id : String
  method : String
  path : String
  inputs : List VariableRow
deriving DecidableEq, Repr

/-- Consumers: every Api with at least one `user_input` variable. -/
def consumersOf (apis : List ApiFull) : List ConsumerView :=
  (apis.map (fun api =>
    { id := api.id, method := api.method, path := api.path,
      inputs := api.«variables».filter (fun v => decide (v.varType = "user_input"))
      : ConsumerView }))
  |>.filter (fun c => decide (0 < c.inputs.length))

/-- The token properties recognized by the deterministic auth linker. -/
def tokenFieldNames : List String :=
  ["accessToken", "access_token", "refreshToken", "refresh_token"]

/-- Does a stored response schema expose one of the token properties? -/
def schemaHasTokenKey (s : Option RespSchema) : Bool :=
  match s with
  | some sch =>
    match sch.properties with
    | some keys => tokenFieldNames.any (fun t => keys.contains t)
    | none => false
  | none => false

/-- `producer.responses.find(...)` for a token-bearing schema. -/
def findTokenSchema (responses : List ResponseRow) : Option RespSchema :=
  (responses.find? (fun r => schemaHasTokenKey r.responseSchema)).bind
    (fun r => r.responseSchema)

/-- Token field preference: accessToken > access_token > refreshToken >
refresh_token; the empty string models the falsy no-match case. -/
def tokenFieldOf (sch : RespSchema) : String :=
  let keys := sch.properties.getD []
  if keys.contains "accessToken" then "accessToken"
  else if keys.contains "access_token" then "access_token"
  else if keys.contains "refreshToken" then "refreshToken"
  else if keys.contains "refresh_token" then "refresh_token"
  else ""

/-- The deterministic pre-analysis: every (auth consumer, token producer) pair
yields one candidate `{Authorization: tokenField}` proposed with confidence 1.0. -/
def deterministicAuthCandidates (apis : List ApiFull) : List RawCandidate :=
  let consumers := consumersOf apis
  let authConsumers := consumers.filter (fun c =>
    c.inputs.any (fun v => decide (v.name = "Authorization" ∧ v.location = "header")))
  let tokenProducers := apis.filter (fun p =>
    p.responses.any (fun r => schemaHasTokenKey r.responseSchema))
  authConsumers.flatMap (fun consumer =>
    tokenProducers.filterMap (fun producer =>
      match findTokenSchema producer.responses with
      | none => none
      | some sch =>
        let tokenField := tokenFieldOf sch
        if tokenField = "" then none
        else some {
          source_api_id := some producer.id, source_method := some producer.method,
          source_path := some producer.path,
          target_api_id := some consumer.id, target_method := some consumer.method,
          target_path := some consumer.path,
          mapping := [("Authorization", tokenField)],
          confidence := 1, reason := some "Deterministic Auth: Bearer Token" }))

/-- The lifecycle keywords of the confidence calibration. -/
def lifecycleKeywords : List String := ["history", "status", "balance", "cancel", "pay"]

/-- The confidence calibration of the persistence loop.  It reads only the
source's method, path and response schemas, the target's path, and the mapping
values; the candidate's own proposed confidence is never consulted. -/
def calibrateConfidence (sourceMethod sourcePath : String)
    (sourceResponses : List ResponseRow) (targetPath : String)
    (mappingValues : List String) : Rat :=
  let confidence : Rat := 1
  let targetHasId := strContainsB targetPath "\x7bid\x7d"
  let usesId := mappingValues.any (fun v => strContainsB (jsToLower v) "id")
  let isCreate := decide (sourceMethod = "POST") && ! strContainsB sourcePath "\x7b"
  let isGet := decide (sourceMethod = "GET")
  let returnsList := sourceResponses.any (fun r =>
    match r.responseSchema with
    | some s => decide (s.stype = some "array")
    | none => false)
  let isLifecycle := lifecycleKeywords.any (fun k => strContainsB (jsToLower sourcePath) k)
  let c1 := if usesId || targetHasId then min confidence (3/5) else confidence
  let c2 := if isLifecycle then min c1 (1/2) else c1
  let c3 := if ! isCreate then min c2 (3/5) else c2
  let c4 := if isGet && returnsList then min c3 (7/10) else c3
  let c5 := min c4 (4/5)
  jsRound2 c5

/-- Source resolution: by id, else by (method, path); an absent JSON field
(`none`) never matches. -/
def findSource (apis : List ApiFull) (c : RawCandidate) : Option ApiFull :=
  match apis.find? (fun a => decide (some a.id = c.source_api_id)) with
  | some a => some a
  | none => apis.find? (fun a =>
      decide (some a.method = c.source_method ∧ some a.path = c.source_path))

/-- Target resolution, same shape as `findSource`. -/
def findTarget (apis : List ApiFull) (c : RawCandidate) : Option ApiFull :=
  match apis.find? (fun a => decide (some a.id = c.target_api_id)) with
  | some a => some a
  | none => apis.find? (fun a =>
      decide (some a.method = c.target_method ∧ some a.path = c.target_path))

/-- The body of the persistence loop for one candidate: skip unresolvable or
self-referential candidates, recompute confidence by calibration, and create
the row.  The candidate's own proposed `confidence` is never read. -/
def persistOne (apis : List ApiFull) (c : RawCandidate) :
    Option PersistedCandidate :=
  match findSource apis c, findTarget apis c with
  | some source, some target =>
    if source.id = target.id then none
    else some {
      sourceApiId := source.id,
      targetApiId := target.id,
      mapping := c.mapping,
      confidence := calibrateConfidence source.method source.path source.responses
        target.path (c.mapping.map Prod.snd) }
  | _, _ => none

/-- The persistence loop over the whole candidate list. -/
def persistCandidates (apis : List ApiFull) (candidates : List RawCandidate) :
    List PersistedCandidate :=
  candidates.filterMap (persistOne apis)

/-- `analyzeProjectVariables`: early return (`none`, nothing replaced) when the
project has no Apis or no consumers; otherwise the stored candidate set is
replaced by the processed deterministic-plus-LLM list. -/
def analyzeProjectVariables (apis : List ApiFull) (llmCandidates : List RawCandidate) :
    Option (List PersistedCandidate) :=
  if apis = [] then none
  else if consumersOf apis = [] then none
  else some (persistCandidates apis (deterministicAuthCandidates apis ++ llmCandidates))

/-! ## JSON Schema objects

One node type models the JSON objects the extractors walk: the fields the code
reads (`readOnly`, `type`, `format`, `properties`, `items`, `allOf`, `oneOf`,
`anyOf`, `required`, and the `parameters` array the legacy service stores
inside `requestSchema`).  An absent object-valued field and an empty one
behave identically in every reader below, so both are the empty list. -/

/-- An entry of a stored `parameters` array (`in` is a Lean keyword, hence
`loc`). -/
structure ParamRec where
  name : String
  loc : String
deriving DecidableEq, Repr

/-- A JSON-schema-like object. -/
inductive JSchema : Type where
  | obj : Bool → Option String → Option String → List (String × JSchema) →
      Option JSchema → List JSchema → List JSchema → List JSchema →
      List String → List ParamRec → JSchema
deriving Repr

/-- Field accessor: `readOnly`. -/
def JSchema.readOnly : JSchema → Bool
  | .obj ro _ _ _ _ _ _ _ _ _ => ro

/-- Field accessor: `type`. -/
def JSchema.stype : JSchema → Option String
  | .obj _ t _ _ _ _ _ _ _ _ => t

/-- Field accessor: `format`. -/
def JSchema.format : JSchema → Option String
  | .obj _ _ f _ _ _ _ _ _ _ => f

/-- Field accessor: `properties`. -/
def JSchema.properties : JSchema → List (String × JSchema)
  | .obj _ _ _ ps _ _ _ _ _ _ => ps

/-- Field accessor: `items`. -/
def JSchema.items : JSchema → Option JSchema
  | .obj _ _ _ _ it _ _ _ _ _ => it

/-- Field accessor: `required`. -/
def JSchema.required : JSchema → List String
  | .obj _ _ _ _ _ _ _ _ req _ => req

/-- Field accessor: `parameters`. -/
def JSchema.parameters : JSchema → List ParamRec
  | .obj _ _ _ _ _ _ _ _ _ ps => ps

/-- The worker of `jsDedup`, carrying the set of already-seen keys. -/
def jsDedupAux (seen : List String) : List String → List String
  | [] => []
  | a :: l =>
    if seen.contains a then jsDedupAux seen l
    else a :: jsDedupAux (seen ++ [a]) l

/-- JS `[...new Set(keys)]`: deduplicate keeping first occurrences. -/
def jsDedup (l : List String) : List String :=
  jsDedupAux [] l

/-! ### `extractSchemaKeys` (legacy analysis service, src/unnamed/part_004)

Walks `properties` (skipping `readOnly` entries when collecting inputs),
`items`, then `allOf`, `oneOf`, `anyOf`, and deduplicates. -/

mutual

/-- `extractSchemaKeys(schema, isInput)`. -/
def extractSchemaKeys (schema : JSchema) (isInput : Bool) : List String :=
  match schema with
  | .obj _ _ _ props items aof oof anf _ _ =>
    jsDedup (extractKeysProps props isInput ++
      (match items with
       | some it => extractSchemaKeys it isInput
       | none => []) ++
      extractKeysList aof isInput ++ extractKeysList oof isInput ++
      extractKeysList anf isInput)

/-- The `for (const key in schema.properties)` loop of `extractSchemaKeys`. -/
def extractKeysProps (props : List (String × JSchema)) (isInput : Bool) :
    List String :=
  match props with
  | [] => []
  | (k, p) :: rest =>
    (if isInput && p.readOnly then [] else k :: extractSchemaKeys p isInput) ++
      extractKeysProps rest isInput

/-- The `forEach` over an `allOf`/`oneOf`/`anyOf` array. -/
def extractKeysList (l : List JSchema) (isInput : Bool) : List String :=
  match l with
  | [] => []
  | s :: rest => extractSchemaKeys s isInput ++ extractKeysList rest isInput

end

/-! ### `extractVariablesFromSchema` (parser.service.ts)

Only the `properties` branch emits variables; recursion happens for
`type === 'object'` properties; `readOnly` is never consulted. -/

/-- A variable emitted by the parser's flattener. -/
structure VarOut where
  name : String
  dataType : String
  required : Bool
  location : String
deriving DecidableEq, Repr

/-- JS `format ? type + '(' + format + ')' : type` (empty string is falsy). -/
def fullTypeOf (stype : Option String) (format : Option String) (dflt : String) :
    String :=
  let t := jsOr stype dflt
  match format with
  | some f => if f = "" then t else t ++ "(" ++ f ++ ")"
  | none => t

mutual

/-- `extractVariablesFromSchema(schema, location, prefix)`; `pfx` models the
`prefix` argument (a Lean keyword). -/
def extractVariablesFromSchema (schema : JSchema) (location : String)
    (pfx : String) : List VarOut :=
  match schema with
  | .obj _ _ _ props _ _ _ _ req _ => extractVarsProps props req location pfx

/-- The property loop: emit the field, recursing into object-typed properties. -/
def extractVarsProps (props : List (String × JSchema)) (req : List String)
    (location pfx : String) : List VarOut :=
  match props with
  | [] => []
  | (key, prop) :: rest =>
    let fullKey := if pfx = "" then key else pfx ++ "." ++ key
    let fullType := fullTypeOf prop.stype prop.format "unknown"
    ({ name := fullKey, dataType := fullType, required := req.contains key,
       location := location } ::
      (if prop.stype = some "object" then
        extractVariablesFromSchema prop location fullKey
      else [])) ++
    extractVarsProps rest req location pfx

end

/-! ### Serialization (stands in for `sha256(JSON.stringify(apiSpec))`)

Only determinism of the hash is used by the theorems, not injectivity, so a
naive encoder is an adequate model of the content hash. -/

mutual

/-- Encode a schema as a string. -/
def encodeSchema : JSchema → String
  | .obj ro t f props items aof oof anf req params =>
    "o(" ++ toString ro ++ "," ++ toString t ++ "," ++ toString f ++ "," ++
      encodeSchemaProps props ++ "," ++
      (match items with
       | some it => "s" ++ encodeSchema it
       | none => "n") ++ "," ++
      encodeSchemaList aof ++ "," ++ encodeSchemaList oof ++ "," ++
      encodeSchemaList anf ++ "," ++ toString req ++ "," ++
      toString (params.map (fun p => (p.name, p.loc))) ++ ")"

/-- Encode a property list. -/
def encodeSchemaProps : List (String × JSchema) → String
  | [] => ""
  | (k, p) :: rest => "[" ++ k ++ ":" ++ encodeSchema p ++ "]" ++ encodeSchemaProps rest

/-- Encode a schema list. -/
def encodeSchemaList : List JSchema → String
  | [] => ""
  | s :: rest => "[" ++ encodeSchema s ++ "]" ++ encodeSchemaList rest

end

/-- Encode an optional schema. -/
def encodeOptSchema : Option JSchema → String
  | some s => "s" ++ encodeSchema s
  | none => "n"

/-! ## Spec ingestor (parser.service.ts, `processOpenParams`)

The transaction body is modelled as a state transformer over the catalog of a
single project.  Child tables are keyed by the surrogate api id in the
database; since an Api is found or created by its unique
`(projectId, method, path)` key and its children are erased before being
rewritten, the catalog is modelled with `(METHOD, path)` as the key.
`SwaggerParser.validate` and the `openapi: 3.x` check happen before the
transaction and are not part of the state transformer; its argument is a
validated, dereferenced document.  `JSON.stringify` cannot throw on the
finite trees modelled here, so the `UnserializableSchema` abort is
unreachable in the model. -/

/-- A media object under a `content` key. -/
structure MediaObj where
  schema : Option JSchema
deriving Repr

/-- A response object of an operation (`content` keyed by content type). -/
structure RespObj where
  content : List (String × MediaObj)
deriving Repr

/-- An operation-level parameter. -/
structure OParam where
  name : String
  loc : String
  schema : Option JSchema
  required : Bool
deriving Repr

/-- An operation.  `security` is a list of requirement objects, each given by
its scheme names in `Object.keys` order. -/
structure Operation where
  summary : Option String
  operationId : Option String
  security : Option (List (List String))
  requestBody : Option (List (String × MediaObj))
  parameters : List OParam
  responses : List (String × RespObj)
deriving Repr

/-- A security scheme definition. -/
structure SecScheme where
  stype : Option String
  scheme : Option String
deriving Repr

/-- A path item: its entries in `Object.entries` order (possibly including the
non-operation keys `parameters`, `servers`, `summary`, `description`) and its
own `security`. -/
structure PathItem where
  entries : List (String × Operation)
  security : Option (List (List String))
deriving Repr

/-- A validated, dereferenced OpenAPI document. -/
structure OpenApiDoc where
  infoVersion : Option String
  paths : List (String × PathItem)
  security : Option (List (List String))
  securitySchemes : List (String × SecScheme)
deriving Repr

/-- Encode a `security` value. -/
def encodeSecurity : Option (List (List String)) → String
  | none => "n"
  | some l => "s" ++ toString l

/-- Encode an operation. -/
def encodeOperation (op : Operation) : String :=
  "op(" ++ toString op.summary ++ "," ++ toString op.operationId ++ "," ++
    encodeSecurity op.security ++ "," ++
    (match op.requestBody with
     | none => "n"
     | some content =>
       "s" ++ String.intercalate ";"
         (content.map (fun cm => cm.1 ++ "=" ++ encodeOptSchema cm.2.schema))) ++ "," ++
    String.intercalate ";"
      (op.parameters.map (fun p =>
        p.name ++ "/" ++ p.loc ++ "/" ++ encodeOptSchema p.schema ++ "/" ++
          toString p.required)) ++ "," ++
    String.intercalate ";"
      (op.responses.map (fun cr =>
        cr.1 ++ "=" ++ String.intercalate "|"
          (cr.2.content.map (fun cm => cm.1 ++ "~" ++ encodeOptSchema cm.2.schema)))) ++
    ")"

/-- The stable content hash of the document (`sha256` of the canonicalized
document; only determinism matters to the theorems, so the encoding itself is
the hash). -/
def specHash (doc : OpenApiDoc) : String :=
  "doc(" ++ toString doc.infoVersion ++ "," ++
    String.intercalate ";"
      (doc.paths.map (fun pi =>
        pi.1 ++ "ENTRIES" ++
          String.intercalate "&"
            (pi.2.entries.map (fun me => me.1 ++ ">" ++ encodeOperation me.2)) ++
          "SEC" ++ encodeSecurity pi.2.security)) ++ "," ++
    encodeSecurity doc.security ++ "," ++
    String.intercalate ";"
      (doc.securitySchemes.map (fun ns =>
        ns.1 ++ "=" ++ toString ns.2.stype ++ "/" ++ toString ns.2.scheme)) ++ ")"

/-- An Api row (key fields factored into the catalog key). -/
structure ApiRowP where
  operationId : Option String
  summary : String
  authType : Option String
deriving DecidableEq, Repr

/-- An ApiRequest row. -/
structure ReqRowP where
  bodySchema : Option JSchema
  queryParams : Option (List (String × Option JSchema))
  pathParams : Option (List (String × Option JSchema))
  headers : Option (List (String × Option JSchema))
deriving Repr

/-- An ApiResponse row. -/
structure RespRowP where
  statusCode : Int
  schema : Option JSchema
deriving Repr

/-- A Variable row. -/
structure VarRowP where
  name : String
  location : String
  varType : String
  dataType : String
  required : Bool
deriving DecidableEq, Repr

/-- The catalog of one project, keyed by `(METHOD, path)`. -/
structure CatalogState where
  specs : List String
  apis : String × String → Option ApiRowP
  requests : String × String → Option ReqRowP
  responses : String × String → List RespRowP
  variableRows : String × String → List VarRowP

/-- JS `parseInt(code)` (radix 10): skip whitespace, optional sign, a digit
prefix; `none` models `NaN`. -/
def digitsPrefixVal (cs : List Char) : Option Nat :=
  let ds := cs.takeWhile Char.isDigit
  if ds = [] then none
  else some (ds.foldl (fun n c => n * 10 + (c.toNat - 48)) 0)

/-- JS `parseInt` on a status-code key. -/
def jsParseInt (s : String) : Option Int :=
  let cs := s.toList.dropWhile Char.isWhitespace
  match cs with
  | '-' :: rest => (digitsPrefixVal rest).map (fun n => -(n : Int))
  | '+' :: rest => (digitsPrefixVal rest).map (fun n => (n : Int))
  | _ => (digitsPrefixVal cs).map (fun n => (n : Int))

/-- `operation.security ? Object.keys(operation.security[0] || {})[0] : null`:
`some v` means the update sets `authType := v`; `none` models `undefined`
(Prisma leaves the column untouched on update, null on create). -/
def authTypeField (op : Operation) : Option (Option String) :=
  match op.security with
  | none => some none
  | some reqs =>
    match reqs.head? with
    | none => none
    | some req0 =>
      match req0.head? with
      | none => none
      | some nm => some (some nm)

/-- `operation.security ?? pathItem.security ?? doc.security ?? []`. -/
def effectiveSecurity (doc : OpenApiDoc) (item : PathItem) (op : Operation) :
    List (List String) :=
  match op.security with
  | some s => s
  | none =>
    match item.security with
    | some s => s
    | none => doc.security.getD []

/-- Does the effective security reference an `http`+`bearer` or `oauth2`
scheme of `components.securitySchemes`? -/
def requiresAuthB (doc : OpenApiDoc) (item : PathItem) (op : Operation) : Bool :=
  (effectiveSecurity doc item op).any (fun req =>
    req.any (fun nm =>
      match objLookup doc.securitySchemes nm with
      | some d =>
        (decide (d.stype.map jsToLower = some "http") &&
         decide (d.scheme.map jsToLower = some "bearer")) ||
        decide (d.stype.map jsToLower = some "oauth2")
      | none => false))

/-- `Object.keys(requestBody.content)[0]` and its schema; an empty-string
content-type key is falsy and yields no body schema. -/
def bodySchemaOf (op : Operation) : Option JSchema :=
  match op.requestBody with
  | none => none
  | some content =>
    match content.head? with
    | none => none
    | some (ct, m) => if ct = "" then none else m.schema

/-- The first content type's schema of a response object. -/
def respSchemaOf (r : RespObj) : Option JSchema :=
  match r.content.head? with
  | none => none
  | some (ct, m) => if ct = "" then none else m.schema

/-- A parameter variable as pushed into `paramVariables`. -/
structure ParamVar where
  name : String
  location : String
  dataType : String
  required : Bool
  varType : Option String
deriving DecidableEq, Repr

/-- The parameter loop: bucket by `in` and collect one variable each. -/
def paramVariablesOf (params : List OParam) : List ParamVar :=
  params.flatMap (fun p =>
    let fullType := fullTypeOf (p.schema.bind JSchema.stype) (p.schema.bind JSchema.format) "string"
    (if p.loc = "query" then
      [{ name := p.name, location := "query", dataType := fullType,
         required := p.required, varType := none }]
     else []) ++
    (if p.loc = "path" then
      [{ name := p.name, location := "path", dataType := fullType,
         required := true, varType := none }]
     else []) ++
    (if p.loc = "header" then
      [{ name := p.name, location := "header", dataType := fullType,
         required := p.required, varType := none }]
     else []))

/-- One bucket map (`queryParams`/`pathParams`/`headerParams`), built by JS
object assignment. -/
def paramBucket (params : List OParam) (loc : String) :
    List (String × Option JSchema) :=
  params.foldl
    (fun acc p => if p.loc = loc then objInsert acc p.name p.schema else acc) []

/-- The synthetic Authorization header schema (`description` not modelled). -/
def authHeaderSchema : JSchema :=
  .obj false (some "string") none [] none [] [] [] [] []

/-- The variable upsert keyed on `(apiId, name, location)`: an existing row is
updated in place, otherwise the row is created. -/
def upsertVar (rows : List VarRowP) (v : VarRowP) : List VarRowP :=
  if rows.any (fun r => decide (r.name = v.name ∧ r.location = v.location)) then
    rows.map (fun r =>
      if r.name = v.name ∧ r.location = v.location then
        { r with varType := v.varType, dataType := v.dataType, required := v.required }
      else r)
  else rows ++ [v]

/-- All data written for one operation. -/
structure OpData where
  key : String × String
  operationId : Option String
  summary : String
  authField : Option (Option String)
  reqRow : ReqRowP
  respRows : List RespRowP
  varRows : List VarRowP
deriving Repr

/-- Compute every row written for one `(path, method, operation)` triple. -/
def opData (doc : OpenApiDoc) (path : String) (item : PathItem)
    (methodKey : String) (op : Operation) : OpData :=
  let requiresAuth := requiresAuthB doc item op
  let bodySchema := bodySchemaOf op
  let bodyVariables :=
    match bodySchema with
    | some sch => extractVariablesFromSchema sch "body" ""
    | none => []
  let paramVars0 := paramVariablesOf op.parameters
  let syntheticAuthVar : ParamVar :=
    { name := "Authorization", location := "header", dataType := "string",
      required := true, varType := some "synthetic" }
  let paramVars :=
    if requiresAuth && ! (paramVars0.any (fun v => decide (v.name = "Authorization"))) then
      paramVars0 ++ [syntheticAuthVar]
    else paramVars0
  let queryParams := paramBucket op.parameters "query"
  let pathParams := paramBucket op.parameters "path"
  let headerParams0 := paramBucket op.parameters "header"
  let headerParams :=
    if requiresAuth then objInsert headerParams0 "Authorization" (some authHeaderSchema)
    else headerParams0
  let allVariables : List VarRowP :=
    (paramVars.map (fun v =>
      { name := v.name, location := v.location,
        varType := v.varType.getD "user_input",
        dataType := jsOr (some v.dataType) "string", required := v.required })) ++
    (bodyVariables.map (fun v =>
      { name := v.name, location := v.location, varType := "user_input",
        dataType := jsOr (some v.dataType) "string", required := v.required }))
  { key := (jsToUpper methodKey, path),
    operationId := op.operationId,
    summary := jsOr op.summary "",
    authField := authTypeField op,
    reqRow :=
      { bodySchema := bodySchema,
        queryParams := if queryParams.isEmpty then none else some queryParams,
        pathParams := if pathParams.isEmpty then none else some pathParams,
        headers := if headerParams.isEmpty then none else some headerParams },
    respRows := op.responses.filterMap (fun cr =>
      (jsParseInt cr.1).map (fun sc =>
        { statusCode := sc, schema := respSchemaOf cr.2 })),
    varRows := allVariables.foldl upsertVar [] }

/-- Operation-level keys that are not operations. -/
def skipKeys : List String := ["parameters", "servers", "summary", "description"]

/-- The flattened operation list of the document, in iteration order. -/
def ingestOps (doc : OpenApiDoc) : List OpData :=
  doc.paths.flatMap (fun pi =>
    pi.2.entries.filterMap (fun me =>
      if skipKeys.contains me.1 then none
      else some (opData doc pi.1 pi.2 me.1 me.2)))

/-- Create-or-update of the Api row: `update` sets `operationId`, `summary`
and (when defined) `authType`; `create` sets all three with `authType`
defaulting to null. -/
def applyOpRow (o : OpData) (old : Option ApiRowP) : ApiRowP :=
  { operationId := o.operationId, summary := o.summary,
    authType :=
      match o.authField with
      | some v => v
      | none =>
        match old with
        | some r => r.authType
        | none => none }

/-- Process one operation: upsert the Api row, erase and rewrite its children. -/
def ingestStep (s : CatalogState) (o : OpData) : CatalogState :=
  { specs := s.specs,
    apis := fun k => if k = o.key then some (applyOpRow o (s.apis o.key)) else s.apis k,
    requests := fun k => if k = o.key then some o.reqRow else s.requests k,
    responses := fun k => if k = o.key then o.respRows else s.responses k,
    variableRows := fun k => if k = o.key then o.varRows else s.variableRows k }

/-- `processOpenParams` (the transaction body): upsert the ApiSpec row by
content hash, then process every operation. -/
def processOpenParams (doc : OpenApiDoc) (s : CatalogState) : CatalogState :=
  let h := specHash doc
  let s1 : CatalogState :=
    { s with specs := if s.specs.contains h then s.specs else s.specs ++ [h] }
  (ingestOps doc).foldl ingestStep s1

/-- The content-type selection of `parser_fix_test.ts` ("LOGIC COPIED FROM
parser.service.ts"): prefer a key containing `json`, then `multipart`, then
`urlencoded`, then the first key. -/
def fixedTargetType (contentTypes : List String) : Option String :=
  match contentTypes.find? (fun ct => strContainsB ct "json") with
  | some ct => some ct
  | none =>
    match contentTypes.find? (fun ct => strContainsB ct "multipart") with
    | some ct => some ct
    | none =>
      match contentTypes.find? (fun ct => strContainsB ct "urlencoded") with
      | some ct => some ct
      | none => contentTypes.head?

/-! ## Legacy variable analysis (src/unnamed/part_004)

The legacy `analyzeProjectVariables` flow persists Variable rows rather than
DependencyCandidate rows.  Its post-processing loop carries the scope filter:
a result whose variable name is not among the target's explicit inputs (path
parameters parsed from `{..}`, extracted body schema keys, parameters with
`in === 'query'`) is dropped.  The deterministic producer map and the `origin`
tag only shape the JSON returned to the UI, not the persisted rows, and are
omitted. -/

/-- The matches of `endpoint.match(/{([^}]+)}/g)`, already stripped of their
braces (`p.slice(1, -1)`): a scanner state machine; `some acc` holds the
reversed characters read since the opening brace.  An empty `{}` is not a
match and scanning resumes after it, exactly as the regex engine does. -/
def scanBracesAux : List Char → Option (List Char) → List String
  | [], _ => []
  | c :: rest, none =>
    if c = '\x7b' then scanBracesAux rest (some [])
    else scanBracesAux rest none
  | c :: rest, some acc =>
    if c = '\x7d' then
      if acc.isEmpty then scanBracesAux rest none
      else String.mk acc.reverse :: scanBracesAux rest none
    else scanBracesAux rest (some (c :: acc))

/-- Path parameters of an endpoint. -/
def legacyPathParams (endpoint : String) : List String :=
  scanBracesAux endpoint.toList none

/-- The legacy Api row slice the analysis reads. -/
structure LegacyApi where
  id : String
  method : String
  endpoint : String
  requestSchema : Option JSchema
deriving Repr

/-- An `AiVariableAnalysis` entry as parsed from the model reply
(`variable` is a Lean keyword, hence guillemets). -/
structure LegacyAnalysisResult where
  «variable» : String
  structuralType : String
  dependencyType : String
  source : Option String
  confidence : Rat
  reason : String
deriving Repr

/-- A legacy Variable row as created by the save loop. -/
structure LegacyVarRow where
  apiId : String
  name : String
  varType : String
  confidence : Rat
  sourceApiId : Option String
deriving DecidableEq, Repr

/-- `clampConfidence`: the confidence policy applied to each result
(`result.confidence || 0.5` treats 0 as missing). -/
def clampConfidence (r : LegacyAnalysisResult) : Rat :=
  let score0 : Rat := if r.confidence = 0 then 1/2 else r.confidence
  let reason := jsToLower r.reason
  let score1 :=
    if r.dependencyType = "dependent" ∧
        (strContainsB reason "system" || strContainsB reason "generated" ||
         strContainsB reason "id") = true then
      min score0 (3/5)
    else score0
  let score2 :=
    if r.dependencyType = "dependent" ∧ strContainsB reason "lifecycle" = true then
      min score1 (1/2)
    else score1
  if r.structuralType = "variable" ∧ r.dependencyType = "independent" then 1
  else score2

/-- Query parameter names stored under `requestSchema.parameters`. -/
def legacyQueryParams (api : LegacyApi) : List String :=
  match api.requestSchema with
  | some sch => sch.parameters.filterMap (fun p =>
      if p.loc = "query" then some p.name else none)
  | none => []

/-- Body keys of the target's request schema, input-scoped. -/
def legacyBodyKeys (api : LegacyApi) : List String :=
  match api.requestSchema with
  | some sch => extractSchemaKeys sch true
  | none => []

/-- The scope filter test: is the variable among the explicit inputs of the target? -/
def legacyInScope (pathParams bodyKeys queryParams : List String) (v : String) : Bool :=
  pathParams.contains v || bodyKeys.contains v || queryParams.contains v

/-- Resolution of `processedResult.source` to an api id (`if
(processedResult.source)` treats the empty string as falsy). -/
def legacySourceId (apis : List LegacyApi) : Option String → Option String
  | none => none
  | some src =>
    if src = "" then none
    else (apis.find? (fun a =>
      decide (a.endpoint = src ∨ a.method ++ " " ++ a.endpoint = src))).map
      (fun a => a.id)

/-- Confidence clamping, the path-`*Id` override, the self-reference refusal
and the row construction for one in-scope result. -/
def legacyBuildRow (apis : List LegacyApi) (targetApi : LegacyApi)
    (pathParams : List String) (result : LegacyAnalysisResult) :
    Option LegacyVarRow :=
  let v := result.«variable»
  let isPath := pathParams.contains v
  let conf0 := clampConfidence result
  let overridden := isPath = true ∧ jsEndsWith v "Id" = true
  let dependencyType := if overridden then "dependent" else result.dependencyType
  let structuralType := if overridden then "variable" else result.structuralType
  let confidence :=
    if overridden then min (if conf0 = 0 then 1/2 else conf0) (3/5) else conf0
  if result.source = some targetApi.endpoint ∧ dependencyType = "dependent" then
    none
  else
    let dbType :=
      if structuralType = "variable" then
        if dependencyType = "dependent" then "dependent" else "user_input"
      else
        if dependencyType = "dependent" then "dependent_constant" else "constant"
    some { apiId := targetApi.id, name := v, varType := dbType,
           confidence := if confidence = 0 then 0 else confidence,
           sourceApiId := legacySourceId apis result.source }

/-- The per-result body of the legacy save loop for one target api: the scope
filter (the hard filter of the post-processing), then the row construction. -/
def legacyProcessResult (apis : List LegacyApi) (targetApi : LegacyApi)
    (pathParams bodyKeys queryParams : List String)
    (result : LegacyAnalysisResult) : Option LegacyVarRow :=
  if ! legacyInScope pathParams bodyKeys queryParams result.«variable» then none
  else legacyBuildRow apis targetApi pathParams result

/-- The legacy save loop: the rows created for the analyzed apis (their old
Variable rows were deleted first). -/
def legacySaveRows (apis : List LegacyApi) (apisToAnalyze : List LegacyApi)
    (analysisResults : List LegacyAnalysisResult) : List LegacyVarRow :=
  apisToAnalyze.flatMap (fun targetApi =>
    let pathParams := legacyPathParams targetApi.endpoint
    let bodyKeys := legacyBodyKeys targetApi
    let queryParams := legacyQueryParams targetApi
    analysisResults.filterMap
      (legacyProcessResult apis targetApi pathParams bodyKeys queryParams))

/-- The target's explicit input set, as the spec names it. -/
def legacyExplicitInputs (api : LegacyApi) : List String :=
  legacyPathParams api.endpoint ++ legacyBodyKeys api ++ legacyQueryParams api

/-! ## Derived helpers used by the theorems -/

/-- The first dependency of the list that fails to resolve in a context. -/
def firstFailingDep (deps : List Dependency) (context : RunContext) :
    Option Dependency :=
  deps.find? (depFailsIn context)

mutual

/-- Remove the `readOnly`-marked property bindings of a schema, recursively. -/
def pruneReadOnly : JSchema → JSchema
  | .obj ro t f props items aof oof anf req params =>
    .obj ro t f (prunePropsRO props)
      (match items with
       | some it => some (pruneReadOnly it)
       | none => none)
      (pruneListRO aof) (pruneListRO oof) (pruneListRO anf) req params

/-- Prune a property list. -/
def prunePropsRO : List (String × JSchema) → List (String × JSchema)
  | [] => []
  | (k, p) :: rest =>
    (if p.readOnly then [] else [(k, pruneReadOnly p)]) ++ prunePropsRO rest

/-- Prune a schema list. -/
def pruneListRO : List JSchema → List JSchema
  | [] => []
  | s :: rest => pruneReadOnly s :: pruneListRO rest

end

/-- The empty catalog. -/
def emptyCatalog : CatalogState :=
  { specs := [], apis := fun _ => none, requests := fun _ => none,
    responses := fun _ => [], variableRows := fun _ => [] }

/-! ## Concrete scenario data -/

/-- The `{accessToken}` response schema of `POST /login`. -/
def loginRespRow : ResponseRow :=
  { responseSchema := some { stype := some "object", properties := some ["accessToken"] } }

/-- `POST /login` returning `{accessToken}` (auth-chain scenario). -/
def loginApi : ApiFull :=
  { id := "a1", method := "POST", path := "/login", «variables» := [],
    responses := [loginRespRow] }

/-- The Authorization header input variable of `GET /me`. -/
def meAuthVar : VariableRow :=
  { name := "Authorization", location := "header", varType := "user_input",
    dataType := "string" }

/-- `GET /me` with a `user_input` Authorization header variable. -/
def meApi : ApiFull :=
  { id := "a2", method := "GET", path := "/me", «variables» := [meAuthVar],
    responses := [] }

/-- The auth-chain project. -/
def loginMeApis : List ApiFull := [loginApi, meApi]

/-- An LLM reply proposing the hallucinated target variable `randomField`. -/
def hallucCandidate : RawCandidate :=
  { source_api_id := some "a1", source_method := some "POST",
    source_path := some "/login",
    target_api_id := some "a2", target_method := some "GET",
    target_path := some "/me",
    mapping := [("randomField", "id")], confidence := 9/10,
    reason := some "made up" }

/-- `hallucCandidate` with a different proposed confidence. -/
def hallucCandidateLowConf : RawCandidate :=
  { hallucCandidate with confidence := 1/10 }

/-- A single-endpoint project with no dependencies. -/
def soloProject : ExecProject :=
  { apis := [{ id := "A", method := "GET", path := "/a" }], deps := [] }

/-- An HTTP oracle answering status 100 with an empty body. -/
def http100 : String → String → HttpResponse := fun _ _ => { status := 100, body := [] }

/-- A two-endpoint project whose confirmed dependencies form the cycle
`{A→B, B→A}`. -/
def cycleProject : ExecProject :=
  { apis := [{ id := "A", method := "GET", path := "/a" },
             { id := "B", method := "GET", path := "/b" }],
    deps := [{ sourceApiId := "A", targetApiId := "B", mapping := [] },
             { sourceApiId := "B", targetApiId := "A", mapping := [] }] }

/-- An HTTP oracle answering status 200 with an empty body. -/
def http200 : String → String → HttpResponse := fun _ _ => { status := 200, body := [] }

/-- A project with a confirmed dependency `A → B`. -/
def depFailProject : ExecProject :=
  { apis := [{ id := "A", method := "POST", path := "/a" },
             { id := "B", method := "GET", path := "/b" }],
    deps := [{ sourceApiId := "A", targetApiId := "B", mapping := [("id", "id")] }] }

/-- An HTTP oracle where `/a` answers 500 and everything else 200. -/
def httpAFails : String → String → HttpResponse := fun _ url =>
  if url = "http://env/a" then { status := 500, body := [] }
  else { status := 200, body := [] }

/-- The multipart body schema of the content-type scenario. -/
def mpSchema : JSchema :=
  .obj false (some "object") none
    [("file", .obj false (some "string") (some "binary") [] none [] [] [] [] [])]
    none [] [] [] [] []

/-- The JSON body schema of the content-type scenario. -/
def jsonSchema : JSchema :=
  .obj false (some "object") none
    [("email", .obj false (some "string") none [] none [] [] [] [] [])]
    none [] [] [] [] []

/-- An operation whose request body lists `multipart/form-data` before
`application/json`. -/
def opC6 : Operation :=
  { summary := none, operationId := none, security := none,
    requestBody := some
      [("multipart/form-data", { schema := some mpSchema }),
       ("application/json", { schema := some jsonSchema })],
    parameters := [], responses := [] }

/-- A body schema with a `readOnly` property `id` and a writable required
property `name`. -/
def roSchema : JSchema :=
  .obj false (some "object") none
    [("id", .obj true (some "string") none [] none [] [] [] [] []),
     ("name", .obj false (some "string") none [] none [] [] [] [] [])]
    none [] [] [] ["name"] []

/-- A document with one operation `POST /widgets` whose JSON body is
`roSchema`. -/
def docC8 : OpenApiDoc :=
  { infoVersion := some "1.0",
    paths := [("/widgets",
      { entries := [("post",
          { summary := none, operationId := none, security := none,
            requestBody := some [("application/json", { schema := some roSchema })],
            parameters := [], responses := [] })],
        security := none })],
    security := none, securitySchemes := [] }

/-- Two raw candidates that agree on everything except the proposed
confidence. -/
def sameCandidateModuloConfidence (c c' : RawCandidate) : Prop :=
  c.source_api_id = c'.source_api_id ∧ c.source_method = c'.source_method ∧
  c.source_path = c'.source_path ∧ c.target_api_id = c'.target_api_id ∧
  c.target_method = c'.target_method ∧ c.target_path = c'.target_path ∧
  c.mapping = c'.mapping ∧ c.reason = c'.reason

/-- A legacy target api `GET /orders/{orderId}` with no request schema. -/
def legacyOrderApi : LegacyApi :=
  { id := "L1", method := "GET", endpoint := "/orders/\x7borderId\x7d",
    requestSchema := none }

/-- A legacy analysis entry for `orderId`. -/
def legacyOrderResult : LegacyAnalysisResult :=
  { «variable» := "orderId", structuralType := "variable",
    dependencyType := "independent", source := none, confidence := 9/10,
    reason := "path id" }

/-- Number of edges into `v` whose source lies in `S` (used by the planner
invariants). -/
def cntFrom (edges : List (String × String)) (S : List String) (v : String) : Nat :=
  (edges.filter (fun e => decide (e.1 ∈ S) && decide (e.2 = v))).length

/-- The `(name, location)` upsert key of a Variable row. -/
def varKey (r : VarRowP) : String × String := (r.name, r.location)

/-- The per-key trace of the Api-row writes of an ingest pass. -/
def apisFold (k : String × String) (ops : List OpData) (x : Option ApiRowP) :
    Option ApiRowP :=
  ops.foldl (fun x o => if k = o.key then some (applyOpRow o x) else x) x

/-- The per-key trace of the ApiRequest writes of an ingest pass. -/
def reqFold (k : String × String) (ops : List OpData) (x : Option ReqRowP) :
    Option ReqRowP :=
  ops.foldl (fun x o => if k = o.key then some o.reqRow else x) x

/-- The per-key trace of the ApiResponse writes of an ingest pass. -/
def respFold (k : String × String) (ops : List OpData) (x : List RespRowP) :
    List RespRowP :=
  ops.foldl (fun x o => if k = o.key then o.respRows else x) x

/-- The per-key trace of the Variable writes of an ingest pass. -/
def varFold (k : String × String) (ops : List OpData) (x : List VarRowP) :
    List VarRowP :=
  ops.foldl (fun x o => if k = o.key then o.varRows else x) x

/-- The `authType` column as seen through an optional Api row. -/
def authOf : Option ApiRowP → Option String
  | some r => r.authType
  | none => none

/-- The `authType` updates of the ops with key `k`: a defined `authField`
overwrites, an undefined one leaves the column untouched. -/
def chainAuthK (k : String × String) (ops : List OpData) (a : Option String) :
    Option String :=
  ops.foldl
    (fun a o =>
      if k = o.key then
        match o.authField with
        | some v => v
        | none => a
      else a) a

/-! # Theorems -/

/-! ## Shared arithmetic lemmas -/

theorem jsRound2_le_bound {q : Rat} (h : q ≤ 4/5) : jsRound2 q ≤ 4/5 := by
  unfold jsRound2
  have h2 : Rat.floor (q * 100 + 1/2) ≤ 80 := by
    by_contra hc
    push_neg at hc
    have h81 : (81 : Int) ≤ Rat.floor (q * 100 + 1/2) := by omega
    have h81' : ((81 : Int) : Rat) ≤ q * 100 + 1/2 := Rat.le_floor.mp h81
    have hq : q * 100 ≤ (4/5 : Rat) * 100 :=
      mul_le_mul_of_nonneg_right h (by norm_num)
    push_cast at h81'
    norm_num at hq
    linarith
  rw [div_le_iff₀ (by norm_num : (0 : Rat) < 100)]
  have h3 : ((Rat.floor (q * 100 + 1/2) : Int) : Rat) ≤ (80 : Rat) := by
    exact_mod_cast h2
  linarith

theorem calibrateConfidence_le (sm sp : String) (srs : List ResponseRow)
    (tp : String) (mv : List String) :
    calibrateConfidence sm sp srs tp mv ≤ 4/5 := by
  unfold calibrateConfidence
  exact jsRound2_le_bound (min_le_right _ _)

/-! ## C3: status classification -/

/-- C3 (counterexample): at a single-endpoint project whose HTTP oracle
answers status 100, the execution is recorded PASSED although the claimed
condition `200 ≤ s < 400` is false — the executor only checks `s < 400`. -/
theorem c3_counterexample :
    (executeRun soloProject http100 "http://env").executions.map
      (fun e => e.status) = ["PASSED"] ∧
    ¬ (200 ≤ 100 ∧ 100 < 400) := ⟨by decide, by decide⟩

/-- C3 (amended): for every endpoint whose input resolution succeeds, the
executor marks the execution PASSED iff the HTTP status is < 400, and FAILED
otherwise; there is no lower bound at 200. -/
theorem c3_status_classification_amended
    (http : String → String → HttpResponse) (environment : String)
    (api : ExecApi) (deps : List Dependency) (context : RunContext)
    (vars : List (String × Option String))
    (h : resolveVariables deps context = Except.ok vars) :
    ((runApi http environment api deps context).exec.status = "PASSED" ↔
      (http api.method (hydrateUrl environment api.path vars)).status < 400) ∧
    ((runApi http environment api deps context).exec.status = "FAILED" ↔
      ¬ (http api.method (hydrateUrl environment api.path vars)).status < 400) := by
  unfold runApi
  rw [h]
  by_cases hs : (http api.method (hydrateUrl environment api.path vars)).status < 400
  · simp [hs]
  · simp [hs]

theorem c3_status_classification_amended_witness :
    resolveVariables [] [] = Except.ok [] ∧
    (((runApi http100 "http://env" { id := "A", method := "GET", path := "/a" }
        [] []).exec.status = "PASSED") ↔
      (http100 "GET" (hydrateUrl "http://env" "/a" [])).status < 400) :=
  ⟨rfl, (c3_status_classification_amended http100 "http://env"
    { id := "A", method := "GET", path := "/a" } [] [] [] rfl).1⟩

/-! ## C4: cycle detection aborts the run -/

/-- C4: when Kahn's sort emits fewer nodes than the project has Apis (the
planner's cycle check fails), `executeRun` returns terminal status ERROR with
no test executions, calls or artifacts beyond the bookkeeping TestRun row. -/
theorem c4_cycle_aborts_run (proj : ExecProject)
    (http : String → String → HttpResponse) (environment : String)
    (hcycle : buildExecutionGraph (proj.apis.map (fun a => a.id))
      (proj.deps.map (fun d => (d.sourceApiId, d.targetApiId))) = none) :
    executeRun proj http environment =
      { status := "ERROR", executions := [], calls := [], artifacts := [] } := by
  unfold executeRun
  rw [hcycle]

theorem c4_cycle_aborts_run_witness :
    (buildExecutionGraph (cycleProject.apis.map (fun a => a.id))
      (cycleProject.deps.map (fun d => (d.sourceApiId, d.targetApiId))) = none) ∧
    executeRun cycleProject http200 "http://env" =
      { status := "ERROR", executions := [], calls := [], artifacts := [] } :=
  ⟨by decide, c4_cycle_aborts_run cycleProject http200 "http://env" (by decide)⟩

/-! ## C6: request-body content-type selection -/

/-- C6: the shipped parser takes the first content-type key
(`Object.keys(content)[0]`), so with `multipart/form-data` listed before
`application/json` it persists the multipart schema, while the preference
order codified in `parser_fix_test.ts` ("LOGIC COPIED FROM parser.service.ts")
selects the JSON schema; the two schemas differ. -/
theorem c6_first_content_type_divergence :
    bodySchemaOf opC6 = some mpSchema ∧
    fixedTargetType ((opC6.requestBody.getD []).map Prod.fst) =
      some "application/json" ∧
    mpSchema ≠ jsonSchema := by
  refine ⟨rfl, by decide, ?_⟩
  intro h
  simp only [mpSchema, jsonSchema, JSchema.obj.injEq, List.cons.injEq,
    Prod.mk.injEq, and_true, true_and] at h
  exact absurd h.1 (by decide)

/-! ## Shared lemmas about the candidate persistence loop -/

theorem persistOne_eq_some {apis : List ApiFull} {c : RawCandidate}
    {r : PersistedCandidate} (h : persistOne apis c = some r) :
    ∃ source, findSource apis c = some source ∧
    ∃ target, findTarget apis c = some target ∧ source.id ≠ target.id ∧
    r = { sourceApiId := source.id, targetApiId := target.id,
          mapping := c.mapping,
          confidence := calibrateConfidence source.method source.path
            source.responses target.path (c.mapping.map Prod.snd) } := by
  unfold persistOne at h
  cases hs : findSource apis c with
  | none => rw [hs] at h; simp at h
  | some source =>
    cases ht : findTarget apis c with
    | none => rw [hs, ht] at h; simp at h
    | some target =>
      rw [hs, ht] at h
      dsimp only at h
      by_cases hid : source.id = target.id
      · rw [if_pos hid] at h; simp at h
      · rw [if_neg hid] at h
        exact ⟨source, rfl, target, rfl, hid, ((Option.some.injEq _ _).mp h).symm⟩

theorem findSource_congr {apis : List ApiFull} {c c' : RawCandidate}
    (h : sameCandidateModuloConfidence c c') :
    findSource apis c = findSource apis c' := by
  obtain ⟨h1, h2, h3, _, _, _, _, _⟩ := h
  unfold findSource
  rw [h1, h2, h3]

theorem findTarget_congr {apis : List ApiFull} {c c' : RawCandidate}
    (h : sameCandidateModuloConfidence c c') :
    findTarget apis c = findTarget apis c' := by
  obtain ⟨_, _, _, h4, h5, h6, _, _⟩ := h
  unfold findTarget
  rw [h4, h5, h6]

theorem persistOne_congr {apis : List ApiFull} {c c' : RawCandidate}
    (h : sameCandidateModuloConfidence c c') :
    persistOne apis c = persistOne apis c' := by
  have hm : c.mapping = c'.mapping := h.2.2.2.2.2.2.1
  unfold persistOne
  rw [findSource_congr h, findTarget_congr h, hm]

/-! ## C1: deterministic auth candidate confidence -/

/-- C1 (counterexample): for the `POST /login` / `GET /me` auth-chain project
with an empty LLM reply, exactly one candidate is persisted with the claimed
source, target and mapping, but its stored confidence is 0.8 (the persistence
loop recalibrates every candidate and ends with the 0.8 soft cap), not 1.0. -/
theorem c1_counterexample :
    analyzeProjectVariables loginMeApis [] =
      some [{ sourceApiId := "a1", targetApiId := "a2",
              mapping := [("Authorization", "accessToken")], confidence := 4/5 }] ∧
    ((4 : Rat)/5 ≠ 1) :=
  ⟨by with_unfolding_all decide, by norm_num⟩

/-- C1 (amended): the deterministic auth linker proposes its candidates with
confidence 1.0, and in the auth-chain scenario exactly one candidate
`source=/login, target=/me, mapping={Authorization: accessToken}` is
persisted; but the persistence loop recomputes every stored confidence by
calibration (ignoring the proposed value), so it is capped at 0.8 — the
scenario candidate is stored with confidence 0.8. -/
theorem c1_deterministic_confidence_amended :
    ((deterministicAuthCandidates loginMeApis).map (fun c => c.confidence) = [1]) ∧
    (analyzeProjectVariables loginMeApis [] =
      some [{ sourceApiId := "a1", targetApiId := "a2",
              mapping := [("Authorization", "accessToken")], confidence := 4/5 }]) ∧
    (∀ (apis : List ApiFull) (cands : List RawCandidate) (r : PersistedCandidate),
      r ∈ persistCandidates apis cands → r.confidence ≤ 4/5) := by
  refine ⟨by with_unfolding_all decide, by with_unfolding_all decide, ?_⟩
  intro apis cands r hr
  obtain ⟨c, _hc, hfc⟩ := List.mem_filterMap.mp hr
  obtain ⟨source, _, target, _, _, hr'⟩ := persistOne_eq_some hfc
  rw [hr']
  exact calibrateConfidence_le _ _ _ _ _

theorem c1_deterministic_confidence_amended_witness :
    ({ sourceApiId := "a1", targetApiId := "a2",
       mapping := [("randomField", "id")], confidence := 3/5 : PersistedCandidate }
        ∈ persistCandidates loginMeApis [hallucCandidate]) ∧
    ({ sourceApiId := "a1", targetApiId := "a2",
       mapping := [("randomField", "id")], confidence := 3/5 : PersistedCandidate
      }.confidence ≤ 4/5) :=
  ⟨by with_unfolding_all decide,
   c1_deterministic_confidence_amended.2.2 loginMeApis [hallucCandidate] _
     (by with_unfolding_all decide)⟩

/-! ## C7: mapping keys versus the target's explicit inputs -/

/-- C7 (counterexample): the live candidate pipeline persists an LLM candidate
whose mapping key `randomField` names no Variable of the target Api — the
persistence loop never checks mapping keys against the target's inputs. -/
theorem c7_counterexample :
    analyzeProjectVariables loginMeApis [hallucCandidate] =
      some [{ sourceApiId := "a1", targetApiId := "a2",
              mapping := [("Authorization", "accessToken")], confidence := 4/5 },
            { sourceApiId := "a1", targetApiId := "a2",
              mapping := [("randomField", "id")], confidence := 3/5 }] ∧
    ("randomField" ∉ meApi.«variables».map (fun v => v.name)) :=
  ⟨by with_unfolding_all decide, by decide⟩

/-- C7 (amended): in the legacy variable-analysis pipeline (the one carrying
the scope filter), every persisted row's variable name belongs to its target's
explicit input set: path parameters parsed from `{..}`, extracted body schema
keys, or parameters with `in=query`. -/
theorem legacyBuildRow_eq_some {apis : List LegacyApi} {targetApi : LegacyApi}
    {pathParams : List String} {result : LegacyAnalysisResult} {row : LegacyVarRow}
    (h : legacyBuildRow apis targetApi pathParams result = some row) :
    row.apiId = targetApi.id ∧ row.name = result.«variable» := by
  unfold legacyBuildRow at h
  dsimp only at h
  split at h <;> split at h <;>
    first
      | (have hrow := (Option.some.injEq _ _).mp h
         exact ⟨by rw [← hrow], by rw [← hrow]⟩)
      | exact absurd h (by simp)

theorem legacyProcessResult_scope {apis : List LegacyApi} {targetApi : LegacyApi}
    {pathParams bodyKeys queryParams : List String}
    {result : LegacyAnalysisResult} {row : LegacyVarRow}
    (h : legacyProcessResult apis targetApi pathParams bodyKeys queryParams result =
      some row) :
    row.apiId = targetApi.id ∧ row.name = result.«variable» ∧
      (row.name ∈ pathParams ∨ row.name ∈ bodyKeys ∨ row.name ∈ queryParams) := by
  unfold legacyProcessResult at h
  cases hscope : legacyInScope pathParams bodyKeys queryParams result.«variable» with
  | false => rw [hscope] at h; exact absurd h (by simp)
  | true =>
    rw [hscope] at h
    simp only [Bool.not_true, Bool.false_eq_true, if_false] at h
    obtain ⟨hid, hname⟩ := legacyBuildRow_eq_some h
    refine ⟨hid, hname, ?_⟩
    rw [hname]
    unfold legacyInScope at hscope
    simp only [Bool.or_eq_true, List.contains, List.elem_eq_mem,
      decide_eq_true_eq] at hscope
    tauto

theorem c7_scope_filter_amended (apis apisToAnalyze : List LegacyApi)
    (results : List LegacyAnalysisResult) (row : LegacyVarRow)
    (h : row ∈ legacySaveRows apis apisToAnalyze results) :
    ∃ target ∈ apisToAnalyze, row.apiId = target.id ∧
      row.name ∈ legacyExplicitInputs target := by
  unfold legacySaveRows at h
  obtain ⟨target, htm, hrow⟩ := List.mem_flatMap.mp h
  obtain ⟨result, _hres, hpr⟩ := List.mem_filterMap.mp hrow
  obtain ⟨hid, _hname, hmem⟩ := legacyProcessResult_scope hpr
  refine ⟨target, htm, hid, ?_⟩
  unfold legacyExplicitInputs
  rcases hmem with hp | hb | hq
  · exact List.mem_append.mpr (Or.inl (List.mem_append.mpr (Or.inl hp)))
  · exact List.mem_append.mpr (Or.inl (List.mem_append.mpr (Or.inr hb)))
  · exact List.mem_append.mpr (Or.inr hq)

theorem c7_scope_filter_amended_witness :
    ({ apiId := "L1", name := "orderId", varType := "dependent",
       confidence := 3/5, sourceApiId := none : LegacyVarRow } ∈
        legacySaveRows [legacyOrderApi] [legacyOrderApi] [legacyOrderResult]) ∧
    (∃ target ∈ [legacyOrderApi],
      ({ apiId := "L1", name := "orderId", varType := "dependent",
         confidence := 3/5, sourceApiId := none : LegacyVarRow }).apiId = target.id ∧
      ({ apiId := "L1", name := "orderId", varType := "dependent",
         confidence := 3/5, sourceApiId := none : LegacyVarRow }).name ∈
        legacyExplicitInputs target) :=
  ⟨by with_unfolding_all decide,
   c7_scope_filter_amended [legacyOrderApi] [legacyOrderApi] [legacyOrderResult] _
     (by with_unfolding_all decide)⟩

/-! ## C10: stored confidence is independent of the proposed confidence -/

/-- C10: two candidate lists that differ only in their proposed confidence
fields persist identical rows; every stored confidence is recomputed solely by
`calibrateConfidence` from the source's method, path and response schemas, the
target's path and the mapping values, and is always ≤ 0.8. -/
theorem c10_confidence_noninterference :
    (∀ (apis : List ApiFull) (l1 l2 : List RawCandidate),
      List.Forall₂ sameCandidateModuloConfidence l1 l2 →
      persistCandidates apis l1 = persistCandidates apis l2) ∧
    (∀ (apis : List ApiFull) (l : List RawCandidate) (r : PersistedCandidate),
      r ∈ persistCandidates apis l →
      r.confidence ≤ 4/5 ∧
      ∃ c ∈ l, ∃ source, findSource apis c = some source ∧
        ∃ target, findTarget apis c = some target ∧
        r = { sourceApiId := source.id, targetApiId := target.id,
              mapping := c.mapping,
              confidence := calibrateConfidence source.method source.path
                source.responses target.path (c.mapping.map Prod.snd) }) := by
  constructor
  · intro apis l1 l2 hrel
    unfold persistCandidates
    induction hrel with
    | nil => rfl
    | cons hcc _ ih =>
      simp only [List.filterMap_cons, persistOne_congr hcc, ih]
  · intro apis l r hr
    obtain ⟨c, hc, hfc⟩ := List.mem_filterMap.mp hr
    obtain ⟨source, hs, target, ht, _, hr'⟩ := persistOne_eq_some hfc
    refine ⟨?_, c, hc, source, hs, target, ht, hr'⟩
    rw [hr']
    exact calibrateConfidence_le _ _ _ _ _

theorem c10_confidence_noninterference_witness :
    List.Forall₂ sameCandidateModuloConfidence [hallucCandidate]
      [hallucCandidateLowConf] ∧
    persistCandidates loginMeApis [hallucCandidate] =
      persistCandidates loginMeApis [hallucCandidateLowConf] :=
  ⟨List.Forall₂.cons (by constructor <;> simp [hallucCandidate, hallucCandidateLowConf,
      sameCandidateModuloConfidence]) List.Forall₂.nil,
   c10_confidence_noninterference.1 loginMeApis [hallucCandidate]
     [hallucCandidateLowConf]
     (List.Forall₂.cons (by constructor <;> simp [hallucCandidate,
       hallucCandidateLowConf, sameCandidateModuloConfidence]) List.Forall₂.nil)⟩

/-! ## C5: dependency failure propagation -/

theorem resolveVariablesAux_error (context : RunContext) :
    ∀ (deps : List Dependency) (acc : List (String × Option String)),
    (∃ d ∈ deps, depFailsIn context d = true) →
    ∃ d ∈ deps, depFailsIn context d = true ∧
      resolveVariablesAux context deps acc = Except.error (depFailMsg d) := by
  intro deps
  induction deps with
  | nil => intro acc h; simp at h
  | cons dep rest ih =>
    intro acc h
    by_cases hd : depFailsIn context dep = true
    · refine ⟨dep, List.mem_cons_self _ _, hd, ?_⟩
      unfold depFailsIn at hd
      unfold resolveVariablesAux
      cases hl : objLookup context dep.sourceApiId with
      | none => rfl
      | some r =>
        rw [hl] at hd
        simp only [decide_eq_true_eq] at hd
        simp only [if_pos hd]
    · have hrest : ∃ d ∈ rest, depFailsIn context d = true := by
        obtain ⟨d, hdm, hdf⟩ := h
        rcases List.mem_cons.mp hdm with rfl | hdm'
        · exact absurd hdf hd
        · exact ⟨d, hdm', hdf⟩
      unfold depFailsIn at hd
      unfold resolveVariablesAux
      cases hl : objLookup context dep.sourceApiId with
      | none => rw [hl] at hd; simp at hd
      | some r =>
        rw [hl] at hd
        simp only [decide_eq_true_eq] at hd
        simp only [if_neg hd]
        obtain ⟨d, hdm, hdf, heq⟩ := ih
          (dep.mapping.foldl (fun a kv => objInsert a kv.1 (objLookup r.body kv.2)) acc)
          hrest
        exact ⟨d, List.mem_cons_of_mem _ hdm, hdf, heq⟩

/-- C5: an endpoint one of whose confirmed dependencies has its source missing
from the run context or recorded with HTTP status ≥ 300 is marked FAILED with
the exact message `Dependency failed: Source <id> not ready or failed.`, no
HTTP call or artifact is recorded for it and the context is unchanged; and
whenever the planner succeeds, the run itself finishes COMPLETED. -/
theorem c5_dependency_failure_handling :
    (∀ (proj : ExecProject) (http : String → String → HttpResponse)
       (environment : String) (st : RunState) (apiId : String) (api : ExecApi),
      proj.apis.find? (fun a => decide (a.id = apiId)) = some api →
      (∃ d ∈ proj.deps.filter (fun d => decide (d.targetApiId = apiId)),
        depFailsIn st.context d = true) →
      ∃ d ∈ proj.deps.filter (fun d => decide (d.targetApiId = apiId)),
        depFailsIn st.context d = true ∧
        runLevelStep proj http environment st apiId =
          { context := st.context,
            executions := st.executions ++
              [{ apiId := api.id, status := "FAILED",
                 errorMessage := some (depFailMsg d) }],
            calls := st.calls, artifacts := st.artifacts }) ∧
    (∀ (proj : ExecProject) (http : String → String → HttpResponse)
       (environment : String) (r : List String × List (List String)),
      buildExecutionGraph (proj.apis.map (fun a => a.id))
        (proj.deps.map (fun d => (d.sourceApiId, d.targetApiId))) = some r →
      (executeRun proj http environment).status = "COMPLETED") := by
  constructor
  · intro proj http environment st apiId api hfind hfail
    obtain ⟨d, hdm, hdf, herr⟩ := resolveVariablesAux_error st.context
      (proj.deps.filter (fun d => decide (d.targetApiId = apiId))) [] hfail
    refine ⟨d, hdm, hdf, ?_⟩
    unfold runLevelStep
    rw [hfind]
    unfold runApi resolveVariables
    dsimp only
    rw [herr]
    simp
  · intro proj http environment r hsome
    unfold executeRun
    rw [hsome]

theorem c5_dependency_failure_handling_witness :
    (depFailProject.apis.find? (fun a => decide (a.id = "B")) =
      some { id := "B", method := "GET", path := "/b" }) ∧
    (∃ d ∈ depFailProject.deps.filter (fun d => decide (d.targetApiId = "B")),
      depFailsIn [("A", { status := 500, body := [] })] d = true) ∧
    (∃ d ∈ depFailProject.deps.filter (fun d => decide (d.targetApiId = "B")),
      depFailsIn [("A", { status := 500, body := [] })] d = true ∧
      runLevelStep depFailProject httpAFails "http://env"
        { context := [("A", { status := 500, body := [] })],
          executions := [], calls := [], artifacts := [] } "B" =
        { context := [("A", { status := 500, body := [] })],
          executions :=
            [{ apiId := "B", status := "FAILED",
               errorMessage := some (depFailMsg
                 { sourceApiId := "A", targetApiId := "B",
                   mapping := [("id", "id")] }) }],
          calls := [], artifacts := [] }) ∧
    (buildExecutionGraph (depFailProject.apis.map (fun a => a.id))
      (depFailProject.deps.map (fun d => (d.sourceApiId, d.targetApiId))) =
        some (["A", "B"], [["A"], ["B"]])) ∧
    (executeRun depFailProject httpAFails "http://env").status = "COMPLETED" := by
  refine ⟨by decide, by decide, ?_, by decide, ?_⟩
  · have hmain := c5_dependency_failure_handling.1 depFailProject httpAFails
      "http://env"
      { context := [("A", { status := 500, body := [] })],
        executions := [], calls := [], artifacts := [] } "B"
      { id := "B", method := "GET", path := "/b" } (by decide) (by decide)
    obtain ⟨d, hdm, hdf, heq⟩ := hmain
    have hlist : depFailProject.deps.filter (fun d => decide (d.targetApiId = "B")) =
        [{ sourceApiId := "A", targetApiId := "B", mapping := [("id", "id")] }] := by
      decide
    rw [hlist] at hdm
    have hd := List.mem_singleton.mp hdm
    subst hd
    exact ⟨_, by decide, hdf, heq⟩
  · exact c5_dependency_failure_handling.2 depFailProject httpAFails "http://env"
      (["A", "B"], [["A"], ["B"]]) (by decide)

/-! ## C8: readOnly properties and input variables -/

/-- C8 (counterexample): the property `id` of `roSchema` is marked
`readOnly`, yet the live parser flattener emits it and the ingest pipeline
creates a body Variable row named `id` for `POST /widgets`. -/
theorem c8_counterexample :
    ((roSchema.properties.find? (fun kp => decide (kp.1 = "id"))).map
      (fun kp => kp.2.readOnly) = some true) ∧
    extractVariablesFromSchema roSchema "body" "" =
      [{ name := "id", dataType := "string", required := false, location := "body" },
       { name := "name", dataType := "string", required := true, location := "body" }] ∧
    ((processOpenParams docC8 emptyCatalog).variableRows ("POST", "/widgets")).map
      (fun v => v.name) = ["id", "name"] :=
  ⟨by decide, by decide, by decide⟩

mutual

theorem extractKeys_input_eq_pruned :
    ∀ s : JSchema, extractSchemaKeys s true = extractSchemaKeys (pruneReadOnly s) false
  | .obj ro t f props items aof oof anf req params => by
    unfold pruneReadOnly extractSchemaKeys
    have hp := extractKeysProps_input_eq_pruned props
    have ha := extractKeysList_input_eq_pruned aof
    have ho := extractKeysList_input_eq_pruned oof
    have hn := extractKeysList_input_eq_pruned anf
    cases items with
    | none => rw [hp, ha, ho, hn]
    | some it =>
      have hi := extractKeys_input_eq_pruned it
      dsimp only
      rw [hp, ha, ho, hn, hi]

theorem extractKeysProps_input_eq_pruned :
    ∀ props : List (String × JSchema),
      extractKeysProps props true = extractKeysProps (prunePropsRO props) false
  | [] => rfl
  | (k, p) :: rest => by
    have hrest := extractKeysProps_input_eq_pruned rest
    cases hro : p.readOnly with
    | true =>
      show (if true && p.readOnly then [] else
          k :: extractSchemaKeys p true) ++ extractKeysProps rest true =
        extractKeysProps ((if p.readOnly then [] else [(k, pruneReadOnly p)]) ++
          prunePropsRO rest) false
      rw [hro]
      simp only [Bool.true_and, if_true, List.nil_append]
      exact hrest
    | false =>
      have hp := extractKeys_input_eq_pruned p
      show (if true && p.readOnly then [] else
          k :: extractSchemaKeys p true) ++ extractKeysProps rest true =
        extractKeysProps ((if p.readOnly then [] else [(k, pruneReadOnly p)]) ++
          prunePropsRO rest) false
      rw [hro]
      simp only [Bool.true_and, Bool.false_eq_true, if_false, List.singleton_append]
      show k :: extractSchemaKeys p true ++ extractKeysProps rest true =
        (if false && (pruneReadOnly p).readOnly then [] else
          k :: extractSchemaKeys (pruneReadOnly p) false) ++
          extractKeysProps (prunePropsRO rest) false
      simp only [Bool.false_and, Bool.false_eq_true, if_false]
      rw [hp, hrest]

theorem extractKeysList_input_eq_pruned :
    ∀ l : List JSchema, extractKeysList l true = extractKeysList (pruneListRO l) false
  | [] => rfl
  | s :: rest => by
    show extractSchemaKeys s true ++ extractKeysList rest true =
      extractKeysList (pruneReadOnly s :: pruneListRO rest) false
    rw [extractKeys_input_eq_pruned s, extractKeysList_input_eq_pruned rest]
    rfl

end

/-- C8 (amended): the legacy input-scoped key extraction `extractSchemaKeys
s true` ignores `readOnly` properties — it equals the unrestricted extraction
over the schema with every `readOnly` property binding removed.  The live
`extractVariablesFromSchema` does not consult `readOnly` (see the
counterexample). -/
theorem c8_readonly_exclusion_amended (s : JSchema) :
    extractSchemaKeys s true = extractSchemaKeys (pruneReadOnly s) false :=
  extractKeys_input_eq_pruned s

/-! ## C2: counting lemmas for the planner -/

theorem tcount_nil (v : String) : tcount [] v = 0 := rfl

theorem tcount_cons (e : String × String) (E : List (String × String)) (v : String) :
    tcount (e :: E) v = tcount E v + (if e.2 = v then 1 else 0) := by
  unfold tcount
  rw [List.filter_cons]
  by_cases h : e.2 = v
  · simp [h]
  · simp [h]

theorem tcount_append (E1 E2 : List (String × String)) (v : String) :
    tcount (E1 ++ E2) v = tcount E1 v + tcount E2 v := by
  unfold tcount
  rw [List.filter_append, List.length_append]

theorem tcount_pos_of_mem {E : List (String × String)} {e : String × String}
    {v : String} (he : e ∈ E) (hv : e.2 = v) : 0 < tcount E v := by
  induction E with
  | nil => exact absurd he (List.not_mem_nil e)
  | cons e0 E ih =>
    rw [tcount_cons]
    rcases List.mem_cons.mp he with rfl | hmem
    · simp [hv]
    · have := ih hmem
      omega

theorem outEdges_cons (e : String × String) (E : List (String × String)) (u : String) :
    outEdges (e :: E) u = if e.1 = u then e :: outEdges E u else outEdges E u := by
  unfold outEdges
  rw [List.filter_cons]
  by_cases h : e.1 = u
  · simp [h]
  · simp [h]

theorem tcount_outEdges_cons (e : String × String) (E : List (String × String))
    (u v : String) :
    tcount (outEdges (e :: E) u) v =
      tcount (outEdges E u) v + (if e.1 = u ∧ e.2 = v then 1 else 0) := by
  rw [outEdges_cons]
  by_cases h1 : e.1 = u
  · rw [if_pos h1, tcount_cons]
    by_cases h2 : e.2 = v
    · simp [h1, h2]
    · simp [h1, h2]
  · rw [if_neg h1]
    simp [h1]

theorem cntFrom_edge_cons (e : String × String) (E : List (String × String))
    (S : List String) (v : String) :
    cntFrom (e :: E) S v = cntFrom E S v + (if e.1 ∈ S ∧ e.2 = v then 1 else 0) := by
  unfold cntFrom
  rw [List.filter_cons]
  by_cases h1 : e.1 ∈ S
  · by_cases h2 : e.2 = v
    · simp [h1, h2]
    · simp [h1, h2]
  · simp [h1]

theorem cntFrom_nil_src (edges : List (String × String)) (v : String) :
    cntFrom edges [] v = 0 := by
  induction edges with
  | nil => rfl
  | cons e E ih =>
    rw [cntFrom_edge_cons]
    simp [ih]

theorem cntFrom_le_tcount (edges : List (String × String)) (S : List String)
    (v : String) : cntFrom edges S v ≤ tcount edges v := by
  induction edges with
  | nil => exact Nat.le_refl 0
  | cons e E ih =>
    rw [cntFrom_edge_cons, tcount_cons]
    by_cases h1 : e.1 ∈ S <;> by_cases h2 : e.2 = v <;> simp [h1, h2] <;> omega

theorem cntFrom_cons_src (edges : List (String × String)) (u : String)
    (S : List String) (hu : u ∉ S) (v : String) :
    cntFrom edges (u :: S) v = tcount (outEdges edges u) v + cntFrom edges S v := by
  induction edges with
  | nil => rfl
  | cons e E ih =>
    rw [cntFrom_edge_cons, cntFrom_edge_cons, tcount_outEdges_cons, ih]
    by_cases h1 : e.1 = u
    · subst h1
      by_cases h2 : e.2 = v
      · simp [h2, hu]
        omega
      · simp [h2]
    · by_cases hS : e.1 ∈ S <;> by_cases h2 : e.2 = v <;>
        simp [h1, hS, h2, List.mem_cons] <;> omega

theorem cntFrom_append_disjoint (edges : List (String × String)) (A B : List String)
    (hdisj : ∀ a ∈ A, a ∉ B) (v : String) :
    cntFrom edges (A ++ B) v = cntFrom edges A v + cntFrom edges B v := by
  induction edges with
  | nil => rfl
  | cons e E ih =>
    rw [cntFrom_edge_cons, cntFrom_edge_cons, cntFrom_edge_cons, ih]
    by_cases hA : e.1 ∈ A
    · have hB : e.1 ∉ B := hdisj e.1 hA
      by_cases h2 : e.2 = v <;> simp [hA, hB, h2, List.mem_append] <;> omega
    · by_cases hB : e.1 ∈ B <;> by_cases h2 : e.2 = v <;>
        simp [hA, hB, h2, List.mem_append] <;> omega

theorem cntFrom_eq_tcount_sources {edges : List (String × String)} {S : List String}
    {v : String} (h : cntFrom edges S v = tcount edges v) :
    ∀ e ∈ edges, e.2 = v → e.1 ∈ S := by
  induction edges with
  | nil => intro e he; exact absurd he (List.not_mem_nil e)
  | cons e0 E ih =>
    intro e he hv
    have hle := cntFrom_le_tcount E S v
    rw [cntFrom_edge_cons, tcount_cons] at h
    rcases List.mem_cons.mp he with rfl | hmem
    · by_cases hS : e.1 ∈ S
      · exact hS
      · exfalso
        simp [hS, hv] at h
        omega
    · apply ih _ e hmem hv
      by_cases hS : e0.1 ∈ S <;> by_cases h2 : e0.2 = v <;>
        simp [hS, h2] at h <;> omega

theorem sources_imp_cntFrom_eq {edges : List (String × String)} {S : List String}
    {v : String} (h : ∀ e ∈ edges, e.2 = v → e.1 ∈ S) :
    cntFrom edges S v = tcount edges v := by
  induction edges with
  | nil => rfl
  | cons e E ih =>
    have ih' := ih (fun e0 he0 hv0 => h e0 (List.mem_cons_of_mem _ he0) hv0)
    rw [cntFrom_edge_cons, tcount_cons, ih']
    by_cases h2 : e.2 = v
    · have hS : e.1 ∈ S := h e (List.mem_cons_self _ _) h2
      simp [h2, hS]
    · simp [h2]

theorem cntFrom_pos_target {edges : List (String × String)} {S : List String}
    {v : String} (h : 0 < cntFrom edges S v) : ∃ e ∈ edges, e.2 = v := by
  induction edges with
  | nil =>
    exfalso
    have : cntFrom [] S v = 0 := rfl
    omega
  | cons e E ih =>
    rw [cntFrom_edge_cons] at h
    by_cases hc : e.1 ∈ S ∧ e.2 = v
    · exact ⟨e, List.mem_cons_self _ _, hc.2⟩
    · rw [if_neg hc] at h
      simp only [Nat.add_zero] at h
      obtain ⟨e0, he0, hv0⟩ := ih h
      exact ⟨e0, List.mem_cons_of_mem _ he0, hv0⟩

/-! ## C2: characterization of level processing -/

theorem processEdges_cons (e : String × String) (E : List (String × String))
    (st : (String → Int) × List String) :
    processEdges (e :: E) st = processEdges E (stepEdge st e) := rfl

theorem processEdges_append (E1 E2 : List (String × String))
    (st : (String → Int) × List String) :
    processEdges (E1 ++ E2) st = processEdges E2 (processEdges E1 st) := by
  unfold processEdges
  exact List.foldl_append _ _ _ _

theorem processEdges_spec :
    ∀ (E : List (String × String)) (f : String → Int) (acc : List String),
    (∀ v, (processEdges E (f, acc)).1 v = f v - (tcount E v : Int)) ∧
    (∀ v, (processEdges E (f, acc)).2.count v =
      acc.count v + (if 0 < f v ∧ f v ≤ (tcount E v : Int) then 1 else 0))
  | [], f, acc => by
    constructor
    · intro v
      show f v = f v - ((tcount [] v : Nat) : Int)
      rw [tcount_nil]
      omega
    · intro v
      show acc.count v = acc.count v + _
      rw [tcount_nil]
      split_ifs with h
      · omega
      · omega
  | e :: E, f, acc => by
    have ih := processEdges_spec E (fun w => if w = e.2 then f e.2 - 1 else f w)
      (if f e.2 - 1 = 0 then acc ++ [e.2] else acc)
    rw [processEdges_cons]
    constructor
    · intro v
      have h1 := ih.1 v
      rw [show stepEdge (f, acc) e =
        ((fun w => if w = e.2 then f e.2 - 1 else f w),
         (if f e.2 - 1 = 0 then acc ++ [e.2] else acc)) from rfl]
      rw [h1, tcount_cons]
      by_cases hv : v = e.2
      · subst hv
        simp
        omega
      · have : e.2 ≠ v := fun hc => hv hc.symm
        simp [hv, this]
    · intro v
      have h2 := ih.2 v
      rw [show stepEdge (f, acc) e =
        ((fun w => if w = e.2 then f e.2 - 1 else f w),
         (if f e.2 - 1 = 0 then acc ++ [e.2] else acc)) from rfl]
      rw [h2, tcount_cons]
      by_cases hv : v = e.2
      · subst hv
        have hcnt : (if f e.2 - 1 = 0 then acc ++ [e.2] else acc).count e.2 =
            acc.count e.2 + (if f e.2 - 1 = 0 then 1 else 0) := by
          split_ifs with h0
          · rw [List.count_append]
            simp
          · omega
        rw [hcnt]
        simp only [if_pos rfl]
        split_ifs <;> omega
      · have hvne : e.2 ≠ v := fun hc => hv hc.symm
        have hcnt : (if f e.2 - 1 = 0 then acc ++ [e.2] else acc).count v =
            acc.count v := by
          split_ifs with h0
          · rw [List.count_append]
            simp [List.count_singleton, hvne]
          · rfl
        rw [hcnt]
        simp [hv, hvne]

theorem processLevel_eq_processEdges (edges : List (String × String)) :
    ∀ (level : List String) (st : (String → Int) × List String),
    level.foldl (fun st u => processEdges (outEdges edges u) st) st =
      processEdges (level.flatMap (outEdges edges)) st
  | [], st => rfl
  | u :: level, st => by
    rw [List.foldl_cons, List.flatMap_cons, processEdges_append]
    exact processLevel_eq_processEdges edges level _

theorem tcount_flatMap_outEdges (edges : List (String × String)) :
    ∀ (level : List String), level.Nodup → ∀ v,
    tcount (level.flatMap (outEdges edges)) v = cntFrom edges level v
  | [], _, v => by
    rw [List.flatMap_nil, tcount_nil, cntFrom_nil_src]
  | u :: level, hnd, v => by
    rw [List.flatMap_cons, tcount_append,
      tcount_flatMap_outEdges edges level (List.Nodup.of_cons hnd) v,
      cntFrom_cons_src edges u level (by
        intro hc
        exact (List.nodup_cons.mp hnd).1 hc) v]

theorem processLevel_spec (edges : List (String × String)) (level : List String)
    (f : String → Int) (hnd : level.Nodup) :
    (∀ v, (processLevel edges level f).1 v = f v - (cntFrom edges level v : Int)) ∧
    (∀ v, (processLevel edges level f).2.count v =
      if 0 < f v ∧ f v ≤ (cntFrom edges level v : Int) then 1 else 0) := by
  unfold processLevel
  rw [processLevel_eq_processEdges]
  have hspec := processEdges_spec (level.flatMap (outEdges edges)) f []
  constructor
  · intro v
    rw [hspec.1 v, tcount_flatMap_outEdges edges level hnd v]
  · intro v
    rw [hspec.2 v, tcount_flatMap_outEdges edges level hnd v]
    simp

/-! ## C2: the Kahn loop invariant -/

theorem kahnLoop_invariant (nodes : List String) (edges : List (String × String))
    (hT : ∀ e ∈ edges, e.2 ∈ nodes) (fuel : Nat) :
    ∀ (S level : List String) (f : String → Int),
    (∀ v, f v = inDeg0 edges v - (cntFrom edges S v : Int)) →
    (∀ e ∈ edges, e.2 ∈ level → e.1 ∈ S) →
    (∀ v ∈ S, f v ≤ 0) →
    (S ++ level).Nodup →
    level ⊆ nodes →
    ((kahnLoop edges fuel f level).1 = (kahnLoop edges fuel f level).2.flatten) ∧
    (S ++ (kahnLoop edges fuel f level).1).Nodup ∧
    ((kahnLoop edges fuel f level).1 ⊆ nodes) ∧
    (∀ e ∈ edges, ∀ j, ∀ hj : j < (kahnLoop edges fuel f level).2.length,
      e.2 ∈ (kahnLoop edges fuel f level).2.get ⟨j, hj⟩ →
      e.1 ∈ S ∨ ∃ i, ∃ hi : i < (kahnLoop edges fuel f level).2.length,
        i < j ∧ e.1 ∈ (kahnLoop edges fuel f level).2.get ⟨i, hi⟩) := by
  induction fuel with
  | zero =>
    intro S level f _ _ _ hnd _
    have h0 : kahnLoop edges 0 f level = ([], []) := rfl
    rw [h0]
    refine ⟨rfl, ?_, ?_, ?_⟩
    · simpa using (List.nodup_append.mp hnd).1
    · intro a ha
      simp at ha
    · intro e _ j hj
      simp at hj
  | succ fuel ih =>
    intro S level f hf hlev hSle hnd hsub
    by_cases hempty : level = []
    · subst hempty
      rw [show kahnLoop edges (fuel + 1) f [] = ([], []) from rfl]
      refine ⟨rfl, ?_, ?_, ?_⟩
      · simpa using (List.nodup_append.mp hnd).1
      · intro a ha
        simp at ha
      · intro e _ j hj
        simp at hj
    · have hstep : kahnLoop edges (fuel + 1) f level =
        (level ++ (kahnLoop edges fuel (processLevel edges level f).1
            (processLevel edges level f).2).1,
         level :: (kahnLoop edges fuel (processLevel edges level f).1
            (processLevel edges level f).2).2) := by
        show (if level = [] then (([] : List String), ([] : List (List String)))
          else _) = _
        rw [if_neg hempty]
      have hndS : S.Nodup := (List.nodup_append.mp hnd).1
      have hndlev : level.Nodup := (List.nodup_append.mp hnd).2.1
      have hdisj : S.Disjoint level := (List.nodup_append.mp hnd).2.2
      have hspec := processLevel_spec edges level f hndlev
      have hfzero : ∀ v ∈ level, f v = 0 := by
        intro v hv
        have hall : ∀ e ∈ edges, e.2 = v → e.1 ∈ S := by
          intro e he h2
          exact hlev e he (h2 ▸ hv)
        have hc := sources_imp_cntFrom_eq hall
        rw [hf v, hc]
        unfold inDeg0
        omega
      have hmem2 : ∀ v, v ∈ (processLevel edges level f).2 ↔
          (0 < f v ∧ f v ≤ (cntFrom edges level v : Int)) := by
        intro v
        constructor
        · intro hv
          by_contra hcond
          have h0 := hspec.2 v
          rw [if_neg hcond] at h0
          exact (List.count_eq_zero.mp h0) hv
        · intro hcond
          have h0 := hspec.2 v
          rw [if_pos hcond] at h0
          by_contra hnm
          rw [List.count_eq_zero_of_not_mem hnm] at h0
          omega
      have hf' : ∀ v, (processLevel edges level f).1 v =
          inDeg0 edges v - (cntFrom edges (S ++ level) v : Int) := by
        intro v
        rw [hspec.1 v, hf v, cntFrom_append_disjoint edges S level hdisj v]
        push_cast
        ring
      have hlev' : ∀ e ∈ edges, e.2 ∈ (processLevel edges level f).2 →
          e.1 ∈ S ++ level := by
        intro e he h2
        have hcond := (hmem2 e.2).mp h2
        have hfe := hf e.2
        have hle := cntFrom_le_tcount edges (S ++ level) e.2
        have happ := cntFrom_append_disjoint edges S level hdisj e.2
        have heq : cntFrom edges (S ++ level) e.2 = tcount edges e.2 := by
          unfold inDeg0 at hfe
          omega
        exact cntFrom_eq_tcount_sources heq e he rfl
      have hSle' : ∀ v ∈ S ++ level, (processLevel edges level f).1 v ≤ 0 := by
        intro v hv
        rw [hspec.1 v]
        rcases List.mem_append.mp hv with hvS | hvl
        · have := hSle v hvS
          omega
        · have := hfzero v hvl
          omega
      have hnd2 : (processLevel edges level f).2.Nodup := by
        rw [List.nodup_iff_count_le_one]
        intro v
        rw [hspec.2 v]
        split_ifs <;> omega
      have hdisj2 : ∀ v ∈ (processLevel edges level f).2, v ∉ S ++ level := by
        intro v hv hvin
        have hcond := (hmem2 v).mp hv
        rcases List.mem_append.mp hvin with hvS | hvl
        · have := hSle v hvS
          omega
        · have := hfzero v hvl
          omega
      have hnd' : ((S ++ level) ++ (processLevel edges level f).2).Nodup := by
        rw [List.nodup_append]
        exact ⟨hnd, hnd2, fun a haS haT => (hdisj2 a haT) haS⟩
      have hsub' : (processLevel edges level f).2 ⊆ nodes := by
        intro v hv
        have hcond := (hmem2 v).mp hv
        have hcpos : 0 < cntFrom edges level v := by omega
        obtain ⟨e, he, h2⟩ := cntFrom_pos_target hcpos
        exact h2 ▸ hT e he
      obtain ⟨j1, j2, j3, j4⟩ := ih (S ++ level) (processLevel edges level f).2
        (processLevel edges level f).1 hf' hlev' hSle' hnd' hsub'
      rw [hstep]
      refine ⟨?_, ?_, ?_, ?_⟩
      · show level ++ _ = List.flatten (level :: _)
        rw [List.flatten_cons, j1]
      · show (S ++ (level ++ _)).Nodup
        rw [← List.append_assoc]
        exact j2
      · intro a ha
        rcases List.mem_append.mp ha with h | h
        · exact hsub h
        · exact j3 h
      · intro e he j hj hmem
        cases j with
        | zero =>
          exact Or.inl (hlev e he hmem)
        | succ j' =>
          have hj' : j' < (kahnLoop edges fuel (processLevel edges level f).1
              (processLevel edges level f).2).2.length := by
            simpa using hj
          have hmem' : e.2 ∈ (kahnLoop edges fuel (processLevel edges level f).1
              (processLevel edges level f).2).2.get ⟨j', hj'⟩ := hmem
          rcases j4 e he j' hj' hmem' with hS' | ⟨i, hi, hij, hmemi⟩
          · rcases List.mem_append.mp hS' with hS | hl
            · exact Or.inl hS
            · exact Or.inr ⟨0, by simp, Nat.succ_pos _, hl⟩
          · exact Or.inr ⟨i + 1, by simpa using hi, Nat.succ_lt_succ hij, hmemi⟩

theorem indexOf_append_notmem (a : String) :
    ∀ (l1 l2 : List String), a ∉ l1 →
    (l1 ++ l2).indexOf a = l1.length + l2.indexOf a
  | [], l2, _ => by rw [List.nil_append, List.length_nil]; omega
  | b :: l1, l2, h => by
    have hb : ¬ (b = a) := fun hc => h (hc ▸ List.mem_cons_self b l1)
    have hba : (b == a) = false := by simp [hb]
    have ih := indexOf_append_notmem a l1 l2 (fun hc => h (List.mem_cons_of_mem b hc))
    simp only [List.cons_append, List.indexOf_cons, List.length_cons, hba, cond_false]
    omega

theorem flatten_nodup_indexOf_lt {a b : String} :
    ∀ (L : List (List String)), L.flatten.Nodup →
    ∀ (i j : Nat) (hi : i < L.length) (hj : j < L.length), i < j →
    a ∈ L.get ⟨i, hi⟩ → b ∈ L.get ⟨j, hj⟩ →
    L.flatten.indexOf a < L.flatten.indexOf b
  | [], _, i, _, hi, _, _, _, _ => absurd hi (Nat.not_lt_zero i)
  | l :: L, hnd, i, j, hi, hj, hij, ha, hb => by
    rw [List.flatten_cons] at hnd ⊢
    have hdisj := (List.nodup_append.mp hnd).2.2
    have hndL := (List.nodup_append.mp hnd).2.1
    cases i with
    | zero =>
      cases j with
      | zero => omega
      | succ j' =>
        have hj' : j' < L.length := Nat.lt_of_succ_lt_succ hj
        have hbF : b ∈ L.flatten :=
          List.mem_flatten.mpr ⟨L.get ⟨j', hj'⟩, List.get_mem L j' hj', hb⟩
        have hbnl : b ∉ l := fun hc => hdisj hc hbF
        have hal : a ∈ l := ha
        rw [List.indexOf_append_of_mem hal, indexOf_append_notmem b l L.flatten hbnl]
        have := List.indexOf_lt_length.mpr hal
        omega
    | succ i' =>
      cases j with
      | zero => omega
      | succ j' =>
        have hi' : i' < L.length := Nat.lt_of_succ_lt_succ hi
        have hj' : j' < L.length := Nat.lt_of_succ_lt_succ hj
        have ha' : a ∈ L.get ⟨i', hi'⟩ := ha
        have hb' : b ∈ L.get ⟨j', hj'⟩ := hb
        have haF : a ∈ L.flatten :=
          List.mem_flatten.mpr ⟨L.get ⟨i', hi'⟩, List.get_mem L i' hi', ha'⟩
        have hbF : b ∈ L.flatten :=
          List.mem_flatten.mpr ⟨L.get ⟨j', hj'⟩, List.get_mem L j' hj', hb'⟩
        have hanl : a ∉ l := fun hc => hdisj hc haF
        have hbnl : b ∉ l := fun hc => hdisj hc hbF
        rw [indexOf_append_notmem a l L.flatten hanl,
          indexOf_append_notmem b l L.flatten hbnl]
        have ih := flatten_nodup_indexOf_lt L hndL i' j' hi' hj'
          (Nat.lt_of_succ_lt_succ hij) ha' hb'
        omega

theorem flatten_nodup_level_unique {a : String} :
    ∀ (L : List (List String)), L.flatten.Nodup →
    ∀ (i j : Nat) (hi : i < L.length) (hj : j < L.length),
    a ∈ L.get ⟨i, hi⟩ → a ∈ L.get ⟨j, hj⟩ → i = j
  | [], _, i, _, hi, _, _, _ => absurd hi (Nat.not_lt_zero i)
  | l :: L, hnd, i, j, hi, hj, ha, hb => by
    rw [List.flatten_cons] at hnd
    have hdisj := (List.nodup_append.mp hnd).2.2
    have hndL := (List.nodup_append.mp hnd).2.1
    cases i with
    | zero =>
      cases j with
      | zero => rfl
      | succ j' =>
        have hj' : j' < L.length := Nat.lt_of_succ_lt_succ hj
        have hbF : a ∈ L.flatten :=
          List.mem_flatten.mpr ⟨L.get ⟨j', hj'⟩, List.get_mem L j' hj', hb⟩
        exact absurd hbF (fun hc => hdisj ha hc)
    | succ i' =>
      cases j with
      | zero =>
        have hi' : i' < L.length := Nat.lt_of_succ_lt_succ hi
        have haF : a ∈ L.flatten :=
          List.mem_flatten.mpr ⟨L.get ⟨i', hi'⟩, List.get_mem L i' hi', ha⟩
        exact absurd haF (fun hc => hdisj hb hc)
      | succ j' =>
        have hi' : i' < L.length := Nat.lt_of_succ_lt_succ hi
        have hj' : j' < L.length := Nat.lt_of_succ_lt_succ hj
        have := flatten_nodup_level_unique L hndL i' j' hi' hj' ha hb
        omega

/-- C2: whenever `buildExecutionGraph` succeeds (no cycle error) on a
duplicate-free Api list whose confirmed dependency edges stay inside the node
set, the returned `sortedOrder` contains every Api of the project, isolated
nodes included, exactly once; for every edge u→v the position of u in
`sortedOrder` is strictly less than the position of v; and the index of u's
layer in `executionLevels` is strictly less than the index of v's layer. -/
theorem c2_planner_topological_order
    (nodes : List String) (edges : List (String × String))
    (sorted : List String) (levels : List (List String))
    (hnodes : nodes.Nodup)
    (hE : ∀ e ∈ edges, e.1 ∈ nodes ∧ e.2 ∈ nodes)
    (h : buildExecutionGraph nodes edges = some (sorted, levels)) :
    (∀ a ∈ nodes, sorted.count a = 1) ∧
    (∀ e ∈ edges, sorted.indexOf e.1 < sorted.indexOf e.2) ∧
    (∀ e ∈ edges, ∀ i j, ∀ hi : i < levels.length, ∀ hj : j < levels.length,
      e.1 ∈ levels.get ⟨i, hi⟩ → e.2 ∈ levels.get ⟨j, hj⟩ → i < j) := by
  have h' : (if (kahnLoop edges (nodes.length + edges.length + 1) (inDeg0 edges)
        (initialLevel nodes edges)).1.length = nodes.length
      then some (kahnLoop edges (nodes.length + edges.length + 1) (inDeg0 edges)
        (initialLevel nodes edges)) else none) = some (sorted, levels) := h
  by_cases hc : (kahnLoop edges (nodes.length + edges.length + 1) (inDeg0 edges)
      (initialLevel nodes edges)).1.length = nodes.length
  case neg =>
    rw [if_neg hc] at h'
    exact absurd h' (by simp)
  rw [if_pos hc] at h'
  have hk : kahnLoop edges (nodes.length + edges.length + 1) (inDeg0 edges)
      (initialLevel nodes edges) = (sorted, levels) := Option.some.inj h'
  have hT : ∀ e ∈ edges, e.2 ∈ nodes := fun e he => (hE e he).2
  have hinv := kahnLoop_invariant nodes edges hT (nodes.length + edges.length + 1)
    [] (initialLevel nodes edges) (inDeg0 edges)
    (by
      intro v
      rw [cntFrom_nil_src]
      simp)
    (by
      intro e he h2
      exfalso
      have hpos := tcount_pos_of_mem he rfl
      have h2' : e.2 ∈ nodes.filter (fun v => decide (inDeg0 edges v = 0)) := h2
      have hdeg : inDeg0 edges e.2 = 0 :=
        of_decide_eq_true (List.mem_filter.mp h2').2
      unfold inDeg0 at hdeg
      omega)
    (by
      intro v hv
      exact absurd hv (List.not_mem_nil v))
    (by
      rw [List.nil_append]
      exact hnodes.filter _)
    (fun v hv => List.mem_of_mem_filter hv)
  obtain ⟨hflat, hndS, hsubN, horder⟩ := hinv
  rw [hk] at hflat hndS hsubN horder
  dsimp only at hflat hndS hsubN horder
  rw [List.nil_append] at hndS
  have hlen : sorted.length = nodes.length := by
    rw [hk] at hc
    exact hc
  have hperm : List.Perm sorted nodes :=
    (hndS.subperm hsubN).perm_of_length_le (le_of_eq hlen.symm)
  have hfnd : levels.flatten.Nodup := hflat ▸ hndS
  have hcount : ∀ a ∈ nodes, sorted.count a = 1 := fun a ha =>
    List.count_eq_one_of_mem hndS (hperm.mem_iff.mpr ha)
  have hlevOrd : ∀ e ∈ edges, ∀ i j, ∀ hi : i < levels.length,
      ∀ hj : j < levels.length,
      e.1 ∈ levels.get ⟨i, hi⟩ → e.2 ∈ levels.get ⟨j, hj⟩ → i < j := by
    intro e he i j hi hj h1 h2
    rcases horder e he j hj h2 with hS | ⟨i0, hi0, hij, hmem0⟩
    · exact absurd hS (List.not_mem_nil _)
    · have := flatten_nodup_level_unique levels hfnd i i0 hi hi0 h1 hmem0
      omega
  have hidx : ∀ e ∈ edges, sorted.indexOf e.1 < sorted.indexOf e.2 := by
    intro e he
    have h2n : e.2 ∈ sorted := hperm.mem_iff.mpr (hE e he).2
    have h2f : e.2 ∈ levels.flatten := hflat ▸ h2n
    obtain ⟨l2, hl2, hin2⟩ := List.mem_flatten.mp h2f
    obtain ⟨⟨j, hj⟩, hget2⟩ := List.mem_iff_get.mp hl2
    have h2g : e.2 ∈ levels.get ⟨j, hj⟩ := by
      rw [hget2]
      exact hin2
    rcases horder e he j hj h2g with hS | ⟨i, hi, hij, h1g⟩
    · exact absurd hS (List.not_mem_nil _)
    · have := flatten_nodup_indexOf_lt levels hfnd i j hi hj hij h1g h2g
      rw [hflat]
      exact this
  exact ⟨hcount, hidx, hlevOrd⟩

/-- Witness for C2: the three-node chain A→B→C sorts to [A, B, C] in three
singleton layers, with all three conclusions checked concretely. -/
theorem c2_planner_topological_order_witness :
    (∀ a ∈ (["A", "B", "C"] : List String),
      (["A", "B", "C"] : List String).count a = 1) ∧
    (∀ e ∈ ([("A", "B"), ("B", "C")] : List (String × String)),
      (["A", "B", "C"] : List String).indexOf e.1 <
        (["A", "B", "C"] : List String).indexOf e.2) ∧
    (∀ e ∈ ([("A", "B"), ("B", "C")] : List (String × String)),
      ∀ i j, ∀ hi : i < ([["A"], ["B"], ["C"]] : List (List String)).length,
      ∀ hj : j < ([["A"], ["B"], ["C"]] : List (List String)).length,
      e.1 ∈ ([["A"], ["B"], ["C"]] : List (List String)).get ⟨i, hi⟩ →
      e.2 ∈ ([["A"], ["B"], ["C"]] : List (List String)).get ⟨j, hj⟩ → i < j) :=
  c2_planner_topological_order ["A", "B", "C"] [("A", "B"), ("B", "C")]
    ["A", "B", "C"] [["A"], ["B"], ["C"]] (by decide) (by decide) (by decide)

/-! ## C9: ingest idempotence -/

theorem catalogState_ext {a b : CatalogState} (h1 : a.specs = b.specs)
    (h2 : a.apis = b.apis) (h3 : a.requests = b.requests)
    (h4 : a.responses = b.responses) (h5 : a.variableRows = b.variableRows) :
    a = b := by
  cases a
  cases b
  rw [CatalogState.mk.injEq]
  exact ⟨h1, h2, h3, h4, h5⟩

theorem foldl_ingestStep_specs :
    ∀ (ops : List OpData) (s : CatalogState),
    (ops.foldl ingestStep s).specs = s.specs
  | [], _ => rfl
  | o :: ops, s => by
    rw [List.foldl_cons]
    exact foldl_ingestStep_specs ops (ingestStep s o)

theorem foldl_ingestStep_apis :
    ∀ (ops : List OpData) (s : CatalogState) (k : String × String),
    (ops.foldl ingestStep s).apis k = apisFold k ops (s.apis k)
  | [], _, _ => rfl
  | o :: ops, s, k => by
    rw [List.foldl_cons, foldl_ingestStep_apis ops (ingestStep s o) k]
    show apisFold k ops (if k = o.key then some (applyOpRow o (s.apis o.key))
        else s.apis k) =
      apisFold k ops (if k = o.key then some (applyOpRow o (s.apis k)) else s.apis k)
    by_cases h : k = o.key
    · rw [h]
    · rw [if_neg h, if_neg h]

theorem foldl_ingestStep_requests :
    ∀ (ops : List OpData) (s : CatalogState) (k : String × String),
    (ops.foldl ingestStep s).requests k = reqFold k ops (s.requests k)
  | [], _, _ => rfl
  | o :: ops, s, k => by
    rw [List.foldl_cons, foldl_ingestStep_requests ops (ingestStep s o) k]
    rfl

theorem foldl_ingestStep_responses :
    ∀ (ops : List OpData) (s : CatalogState) (k : String × String),
    (ops.foldl ingestStep s).responses k = respFold k ops (s.responses k)
  | [], _, _ => rfl
  | o :: ops, s, k => by
    rw [List.foldl_cons, foldl_ingestStep_responses ops (ingestStep s o) k]
    rfl

theorem foldl_ingestStep_variableRows :
    ∀ (ops : List OpData) (s : CatalogState) (k : String × String),
    (ops.foldl ingestStep s).variableRows k = varFold k ops (s.variableRows k)
  | [], _, _ => rfl
  | o :: ops, s, k => by
    rw [List.foldl_cons, foldl_ingestStep_variableRows ops (ingestStep s o) k]
    rfl

theorem foldl_key_const_or_id {α : Type} (k : String × String)
    (f : α → OpData → α)
    (hconst : ∀ x y o, k = o.key → f x o = f y o)
    (hid : ∀ x o, ¬ k = o.key → f x o = x) :
    ∀ ops : List OpData,
    (∀ x, ops.foldl f x = x) ∨ (∀ x y, ops.foldl f x = ops.foldl f y)
  | [] => Or.inl (fun _ => rfl)
  | o :: ops => by
    by_cases h : k = o.key
    · refine Or.inr (fun x y => ?_)
      rw [List.foldl_cons, List.foldl_cons, hconst x y o h]
    · rcases foldl_key_const_or_id k f hconst hid ops with hId | hC
      · refine Or.inl (fun x => ?_)
        rw [List.foldl_cons, hid x o h]
        exact hId x
      · refine Or.inr (fun x y => ?_)
        rw [List.foldl_cons, List.foldl_cons, hid x o h, hid y o h]
        exact hC x y

theorem foldl_idem_of_const_or_id {α : Type} (f : α → OpData → α)
    (ops : List OpData)
    (h : (∀ x, ops.foldl f x = x) ∨ (∀ x y, ops.foldl f x = ops.foldl f y))
    (x : α) : ops.foldl f (ops.foldl f x) = ops.foldl f x := by
  rcases h with hId | hC
  · exact hId (ops.foldl f x)
  · exact hC (ops.foldl f x) x

theorem foldl_id_of_no_match {α : Type} (k : String × String)
    (f : α → OpData → α) (hid : ∀ x o, ¬ k = o.key → f x o = x) :
    ∀ ops : List OpData, (∀ o ∈ ops, ¬ k = o.key) → ∀ x, ops.foldl f x = x
  | [], _, _ => rfl
  | o :: ops, hno, x => by
    rw [List.foldl_cons, hid x o (hno o (List.mem_cons_self o ops))]
    exact foldl_id_of_no_match k f hid ops
      (fun o' ho' => hno o' (List.mem_cons_of_mem o ho')) x

theorem applyOpRow_authType (o : OpData) (x : Option ApiRowP) :
    (applyOpRow o x).authType =
      match o.authField with
      | some v => v
      | none => authOf x := by
  unfold applyOpRow authOf
  cases o.authField with
  | some v => rfl
  | none => cases x <;> rfl

theorem authOf_apisFold (k : String × String) :
    ∀ (ops : List OpData) (x : Option ApiRowP),
    authOf (apisFold k ops x) = chainAuthK k ops (authOf x)
  | [], _ => rfl
  | o :: ops, x => by
    unfold apisFold chainAuthK
    rw [List.foldl_cons, List.foldl_cons]
    by_cases h : k = o.key
    · rw [if_pos h, if_pos h]
      have ih := authOf_apisFold k ops (some (applyOpRow o x))
      unfold apisFold chainAuthK at ih
      rw [ih]
      have : authOf (some (applyOpRow o x)) =
          match o.authField with
          | some v => v
          | none => authOf x := applyOpRow_authType o x
      rw [this]
    · rw [if_neg h, if_neg h]
      exact authOf_apisFold k ops x

theorem chainAuthK_const_or_id (k : String × String) :
    ∀ ops : List OpData,
    (∀ a, chainAuthK k ops a = a) ∨ (∀ a b, chainAuthK k ops a = chainAuthK k ops b)
  | [] => Or.inl (fun _ => rfl)
  | o :: ops => by
    by_cases h : k = o.key
    · cases haf : o.authField with
      | some v =>
        refine Or.inr (fun a b => ?_)
        unfold chainAuthK
        rw [List.foldl_cons, List.foldl_cons, if_pos h, if_pos h, haf]
      | none =>
        have hstep : ∀ a, chainAuthK k (o :: ops) a = chainAuthK k ops a := by
          intro a
          unfold chainAuthK
          rw [List.foldl_cons, if_pos h, haf]
        rcases chainAuthK_const_or_id k ops with hId | hC
        · exact Or.inl (fun a => by rw [hstep a]; exact hId a)
        · exact Or.inr (fun a b => by rw [hstep a, hstep b]; exact hC a b)
    · have hstep : ∀ a, chainAuthK k (o :: ops) a = chainAuthK k ops a := by
        intro a
        unfold chainAuthK
        rw [List.foldl_cons, if_neg h]
      rcases chainAuthK_const_or_id k ops with hId | hC
      · exact Or.inl (fun a => by rw [hstep a]; exact hId a)
      · exact Or.inr (fun a b => by rw [hstep a, hstep b]; exact hC a b)

theorem applyOpRow_eq_of_authType {o : OpData} {x y : Option ApiRowP}
    (h : (applyOpRow o x).authType = (applyOpRow o y).authType) :
    applyOpRow o x = applyOpRow o y := by
  unfold applyOpRow at h ⊢
  rw [ApiRowP.mk.injEq]
  exact ⟨rfl, rfl, h⟩

theorem apisFold_eq_of_chain (k : String × String) :
    ∀ (ops : List OpData) (x y : Option ApiRowP), (∃ o ∈ ops, k = o.key) →
    chainAuthK k ops (authOf x) = chainAuthK k ops (authOf y) →
    apisFold k ops x = apisFold k ops y
  | [], _, _, hex, _ => absurd hex (by simp)
  | o :: ops, x, y, hex, hch => by
    by_cases h : k = o.key
    · have hx : apisFold k (o :: ops) x = apisFold k ops (some (applyOpRow o x)) := by
        unfold apisFold
        rw [List.foldl_cons, if_pos h]
      have hy : apisFold k (o :: ops) y = apisFold k ops (some (applyOpRow o y)) := by
        unfold apisFold
        rw [List.foldl_cons, if_pos h]
      have hcx : chainAuthK k (o :: ops) (authOf x) =
          chainAuthK k ops (authOf (some (applyOpRow o x))) := by
        unfold chainAuthK
        rw [List.foldl_cons, if_pos h]
        simp only [authOf]
        rw [applyOpRow_authType o x]
        exact rfl
      have hcy : chainAuthK k (o :: ops) (authOf y) =
          chainAuthK k ops (authOf (some (applyOpRow o y))) := by
        unfold chainAuthK
        rw [List.foldl_cons, if_pos h]
        simp only [authOf]
        rw [applyOpRow_authType o y]
        exact rfl
      have hch' : chainAuthK k ops (authOf (some (applyOpRow o x))) =
          chainAuthK k ops (authOf (some (applyOpRow o y))) := by
        rw [← hcx, ← hcy]
        exact hch
      by_cases hex' : ∃ o' ∈ ops, k = o'.key
      · rw [hx, hy]
        exact apisFold_eq_of_chain k ops _ _ hex' hch'
      · have hno : ∀ o' ∈ ops, ¬ k = o'.key := by
          intro o' ho' hk
          exact hex' ⟨o', ho', hk⟩
        have hidA : ∀ z : Option ApiRowP, apisFold k ops z = z :=
          foldl_id_of_no_match k _ (fun z o' h' => if_neg h') ops hno
        have hidC : ∀ a : Option String, chainAuthK k ops a = a :=
          foldl_id_of_no_match k _ (fun a o' h' => if_neg h') ops hno
        rw [hx, hy, hidA, hidA]
        have hA : authOf (some (applyOpRow o x)) = authOf (some (applyOpRow o y)) := by
          rw [← hidC (authOf (some (applyOpRow o x))),
            ← hidC (authOf (some (applyOpRow o y)))]
          exact hch'
        exact congrArg some (applyOpRow_eq_of_authType hA)
    · have hx : apisFold k (o :: ops) x = apisFold k ops x := by
        unfold apisFold
        rw [List.foldl_cons, if_neg h]
      have hy : apisFold k (o :: ops) y = apisFold k ops y := by
        unfold apisFold
        rw [List.foldl_cons, if_neg h]
      have hcx : chainAuthK k (o :: ops) (authOf x) = chainAuthK k ops (authOf x) := by
        unfold chainAuthK
        rw [List.foldl_cons, if_neg h]
      have hcy : chainAuthK k (o :: ops) (authOf y) = chainAuthK k ops (authOf y) := by
        unfold chainAuthK
        rw [List.foldl_cons, if_neg h]
      have hex' : ∃ o' ∈ ops, k = o'.key := by
        rcases hex with ⟨o', ho', hk⟩
        rcases List.mem_cons.mp ho' with rfl | ho''
        · exact absurd hk h
        · exact ⟨o', ho'', hk⟩
      rw [hx, hy]
      exact apisFold_eq_of_chain k ops x y hex' (by rw [← hcx, ← hcy]; exact hch)

theorem apisFold_idem (k : String × String) (ops : List OpData)
    (x : Option ApiRowP) :
    apisFold k ops (apisFold k ops x) = apisFold k ops x := by
  by_cases hex : ∃ o ∈ ops, k = o.key
  · apply apisFold_eq_of_chain k ops _ _ hex
    rw [authOf_apisFold]
    rcases chainAuthK_const_or_id k ops with hId | hC
    · rw [hId (chainAuthK k ops (authOf x))]
    · exact hC _ _
  · have hno : ∀ o ∈ ops, ¬ k = o.key := by
      intro o ho hk
      exact hex ⟨o, ho, hk⟩
    have hidA : ∀ z : Option ApiRowP, apisFold k ops z = z :=
      foldl_id_of_no_match k _ (fun z o' h' => if_neg h') ops hno
    rw [hidA, hidA]

theorem upsertVar_keymap_nodup {rows : List VarRowP} (v : VarRowP)
    (h : (rows.map varKey).Nodup) : ((upsertVar rows v).map varKey).Nodup := by
  unfold upsertVar
  split_ifs with hany
  · rw [List.map_map]
    have hmap : (varKey ∘ fun r =>
        if r.name = v.name ∧ r.location = v.location then { r with varType := v.varType, dataType := v.dataType, required := v.required } else r) = varKey := by
      funext r
      simp only [Function.comp]
      split_ifs with hcond
      · rfl
      · rfl
    rw [hmap]
    exact h
  · rw [List.map_append]
    rw [List.nodup_append]
    refine ⟨h, List.nodup_singleton _, ?_⟩
    intro p hp hq
    rw [List.mem_map] at hp
    obtain ⟨r, hr, hkr⟩ := hp
    rw [List.map_cons, List.map_nil, List.mem_singleton] at hq
    apply hany
    rw [List.any_eq_true]
    refine ⟨r, hr, ?_⟩
    rw [decide_eq_true_iff]
    have : (r.name, r.location) = (v.name, v.location) := by
      rw [show (r.name, r.location) = varKey r from rfl, hkr, hq]
      rfl
    exact ⟨congrArg Prod.fst this, congrArg Prod.snd this⟩

theorem foldl_upsert_keymap_nodup :
    ∀ (l : List VarRowP) (rows : List VarRowP), (rows.map varKey).Nodup →
    ((l.foldl upsertVar rows).map varKey).Nodup
  | [], _, h => h
  | v :: l, rows, h => by
    rw [List.foldl_cons]
    exact foldl_upsert_keymap_nodup l (upsertVar rows v) (upsertVar_keymap_nodup v h)

theorem varFold_cases (k : String × String) :
    ∀ (ops : List OpData) (x : List VarRowP),
    varFold k ops x = x ∨ ∃ o ∈ ops, varFold k ops x = o.varRows
  | [], _ => Or.inl rfl
  | o :: ops, x => by
    have hcons : ∀ z : List VarRowP, varFold k (o :: ops) z =
        varFold k ops (if k = o.key then o.varRows else z) := by
      intro z
      unfold varFold
      rw [List.foldl_cons]
    by_cases h : k = o.key
    · rw [hcons x, if_pos h]
      rcases varFold_cases k ops o.varRows with hid | ⟨o', ho', heq⟩
      · exact Or.inr ⟨o, List.mem_cons_self o ops, hid⟩
      · exact Or.inr ⟨o', List.mem_cons_of_mem o ho', heq⟩
    · rw [hcons x, if_neg h]
      rcases varFold_cases k ops x with hid | ⟨o', ho', heq⟩
      · exact Or.inl hid
      · exact Or.inr ⟨o', List.mem_cons_of_mem o ho', heq⟩

theorem ingestOps_varRows_nodup (doc : OpenApiDoc) :
    ∀ o ∈ ingestOps doc, ((o.varRows).map varKey).Nodup := by
  intro o ho
  unfold ingestOps at ho
  rw [List.mem_flatMap] at ho
  obtain ⟨pi, _, hpf⟩ := ho
  rw [List.mem_filterMap] at hpf
  obtain ⟨me, _, hme⟩ := hpf
  by_cases hskip : skipKeys.contains me.1
  · rw [if_pos hskip] at hme
    exact absurd hme (by simp)
  · rw [if_neg hskip] at hme
    have hvr : o.varRows =
        ((opData doc pi.1 pi.2 me.1 me.2).varRows) := by
      rw [← Option.some.inj hme]
    rw [hvr]
    exact foldl_upsert_keymap_nodup _ [] List.nodup_nil

/-- C9: ingesting the same OpenAPI document twice into the same project is
idempotent: after the first ingest the catalog's spec list contains the
document's hash, so the second ingest inserts no new ApiSpec row and, because
every operation's child rows are erased and rewritten from the document alone
(with the Api row's `authType` merge being constant-or-identity), the second
ingest reproduces the catalog exactly — same specs, same `(method, path)`
keys, same Api/Request/Response/Variable rows.  Moreover every key the ingest
rewrote holds Variable rows with pairwise distinct `(name, location)` upsert
keys, i.e. no duplicate Variable rows. -/
theorem c9_ingest_idempotent (doc : OpenApiDoc) (s : CatalogState) :
    (processOpenParams doc s).specs.contains (specHash doc) = true ∧
    processOpenParams doc (processOpenParams doc s) = processOpenParams doc s ∧
    (∀ k, (((processOpenParams doc s).variableRows k).map varKey).Nodup ∨
      (processOpenParams doc s).variableRows k = s.variableRows k) := by
  have hs1 : processOpenParams doc s =
      (ingestOps doc).foldl ingestStep
        { s with specs := if s.specs.contains (specHash doc) then s.specs
            else s.specs ++ [specHash doc] } := rfl
  have hcont : (processOpenParams doc s).specs.contains (specHash doc) = true := by
    rw [hs1, foldl_ingestStep_specs]
    show (if s.specs.contains (specHash doc) then s.specs
      else s.specs ++ [specHash doc]).contains (specHash doc) = true
    split_ifs with hc
    · exact hc
    · simp [List.contains, List.elem_eq_mem]
  have hP2 : processOpenParams doc (processOpenParams doc s) =
      (ingestOps doc).foldl ingestStep
        { processOpenParams doc s with specs :=
            if (processOpenParams doc s).specs.contains (specHash doc)
            then (processOpenParams doc s).specs
            else (processOpenParams doc s).specs ++ [specHash doc] } := rfl
  have hred : ({ processOpenParams doc s with specs :=
      if (processOpenParams doc s).specs.contains (specHash doc)
      then (processOpenParams doc s).specs
      else (processOpenParams doc s).specs ++ [specHash doc] } : CatalogState) =
      processOpenParams doc s := by
    rw [if_pos hcont]
  have hidem : (ingestOps doc).foldl ingestStep (processOpenParams doc s) =
      processOpenParams doc s := by
    apply catalogState_ext
    · rw [foldl_ingestStep_specs]
    · funext k
      rw [foldl_ingestStep_apis, hs1, foldl_ingestStep_apis]
      exact apisFold_idem k (ingestOps doc) _
    · funext k
      rw [foldl_ingestStep_requests, hs1, foldl_ingestStep_requests]
      exact foldl_idem_of_const_or_id _ (ingestOps doc)
        (foldl_key_const_or_id k _
          (fun x y o hk => by rw [if_pos hk, if_pos hk])
          (fun x o hk => if_neg hk) (ingestOps doc)) _
    · funext k
      rw [foldl_ingestStep_responses, hs1, foldl_ingestStep_responses]
      exact foldl_idem_of_const_or_id _ (ingestOps doc)
        (foldl_key_const_or_id k _
          (fun x y o hk => by rw [if_pos hk, if_pos hk])
          (fun x o hk => if_neg hk) (ingestOps doc)) _
    · funext k
      rw [foldl_ingestStep_variableRows, hs1, foldl_ingestStep_variableRows]
      exact foldl_idem_of_const_or_id _ (ingestOps doc)
        (foldl_key_const_or_id k _
          (fun x y o hk => by rw [if_pos hk, if_pos hk])
          (fun x o hk => if_neg hk) (ingestOps doc)) _
  have hvar : ∀ k, (((processOpenParams doc s).variableRows k).map varKey).Nodup ∨
      (processOpenParams doc s).variableRows k = s.variableRows k := by
    intro k
    rw [hs1, foldl_ingestStep_variableRows]
    show ((varFold k (ingestOps doc) (s.variableRows k)).map varKey).Nodup ∨
      varFold k (ingestOps doc) (s.variableRows k) = s.variableRows k
    rcases varFold_cases k (ingestOps doc) (s.variableRows k) with hid | ⟨o, ho, heq⟩
    · exact Or.inr hid
    · rw [heq]
      exact Or.inl (ingestOps_varRows_nodup doc o ho)
  refine ⟨hcont, ?_, hvar⟩
  rw [hP2, hred]
  exact hidem

end QA
